import Mathlib

/-!
Verification of the immune-based edge-placement engine of the CDN-simulator
repository.  The Python sources (`immune_placement.py`, `simulation_runner.py`)
are shallowly embedded: latencies, demands and fitness values become exact
rationals, Python dictionaries become association lists, Python exceptions
(KeyError / ValueError / ZeroDivisionError / AttributeError) become `Option`
failure, and the global random source becomes an explicit stream `ℕ → ℕ`
threaded with a position counter.
-/

/-- A peer node (`Peer` dataclass in `immune_placement.py`). -/
structure Peer where
  id : String
  region : String
  demand : ℚ
  rtt_to_edge_a : ℚ
  rtt_to_edge_b : ℚ
  neighbors : List String
deriving DecidableEq

/-- RTT measurements (`RTTMatrix` dataclass): peer-pair table and
(peer, edge) table, both as association lists standing for Python dicts. -/
structure RTTMatrix where
  peer_to_peer : List ((String × String) × ℚ)
  peer_to_edge : List ((String × String) × ℚ)
deriving DecidableEq

/-- A candidate solution / antibody (`Solution` dataclass).  The derived
fields default to `0.0` exactly as in the Python dataclass. -/
structure Solution where
  super_peers : List String
  edge_assignments : List (String × String)
  fitness : ℚ := 0
  avg_delay : ℚ := 0
  load_imbalance : ℚ := 0
  edge_a_load : ℚ := 0
  edge_b_load : ℚ := 0
deriving DecidableEq

/-- The tuple returned by `evaluate_solution`. -/
structure EvalResult where
  fitness : ℚ
  avg_delay : ℚ
  load_imbalance : ℚ
  edge_a_load : ℚ
  edge_b_load : ℚ
deriving DecidableEq

/-- `ImmunePlacementAlgorithm.get_peer_rtt`: 0 on equal ids, then the pairwise
table under either ordering, then the fixed 100 ms default. -/
def get_peer_rtt (m : RTTMatrix) (peer_i peer_j : String) : ℚ :=
  if peer_i = peer_j then 0
  else ((List.lookup (peer_i, peer_j) m.peer_to_peer).getD
        ((List.lookup (peer_j, peer_i) m.peer_to_peer).getD 100))

/-- Lookup of `self.peers[peer_id]` (the id-keyed peer dict). -/
def findPeer (peers : List Peer) (pid : String) : Option Peer :=
  peers.find? (fun p => p.id == pid)

/-- `ImmunePlacementAlgorithm.get_edge_rtt`: the (peer, edge) table first,
otherwise the peer's stored direct latency.  The fallback performs
`self.peers[peer_id]`, whose KeyError is modelled as `none`. -/
def get_edge_rtt (m : RTTMatrix) (peers : List Peer) (peer_id edge : String) :
    Option ℚ :=
  match List.lookup (peer_id, edge) m.peer_to_edge with
  | some v => some v
  | none =>
      (findPeer peers peer_id).map
        (fun p => if edge = "A" then p.rtt_to_edge_a else p.rtt_to_edge_b)

/-- Python's `min` over a possibly-empty sequence of rationals
(`none` encodes the `float('inf')` of the empty-super-peer guard). -/
def listMin : List ℚ → Option ℚ
  | [] => none
  | x :: rest =>
      match listMin rest with
      | none => some x
      | some y => some (min x y)

/-- The edge assignment consulted by the evaluator:
`solution.edge_assignments.get(peer_id, 'A')`. -/
def assignedEdge (sol : Solution) (pid : String) : String :=
  (List.lookup pid sol.edge_assignments).getD "A"

/-- The engine's P2P candidate delay: minimum `get_peer_rtt` over the
super-peer list (`none` when the list is empty). -/
def d_super_engine (m : RTTMatrix) (pid : String) (sps : List String) :
    Option ℚ :=
  listMin (sps.map (fun sp => get_peer_rtt m pid sp))

/-- `min(d_super + 5.0, d_edge)` with the 5 ms P2P overhead penalty;
an absent P2P option (`+inf`) leaves the edge delay. -/
def effectiveDelay (dS : Option ℚ) (dE : ℚ) : ℚ :=
  match dS with
  | none => dE
  | some s => min (s + 5) dE

/-- One iteration of `evaluate_solution`'s per-peer loop: the weighted delay
contribution `d_effective * demand` plus the demand routed to each edge load.
`none` models the KeyError of `edge_loads[assigned_edge]` on a label outside
{A, B} and of the `get_edge_rtt` fallback on an unknown peer id. -/
def peerContrib (peersAll : List Peer) (m : RTTMatrix) (sol : Solution)
    (p : Peer) : Option (ℚ × ℚ × ℚ) :=
  let e := assignedEdge sol p.id
  match get_edge_rtt m peersAll p.id e with
  | none => none
  | some d_edge =>
      let d_eff := effectiveDelay (d_super_engine m p.id sol.super_peers) d_edge
      if e = "A" then some (d_eff * p.demand, p.demand, 0)
      else if e = "B" then some (d_eff * p.demand, 0, p.demand)
      else none

/-- The evaluator's loop over the peer population, accumulating
`(Σ d_effective·demand, edge A load, edge B load)`. -/
def evalAux (peersAll : List Peer) (m : RTTMatrix) (sol : Solution) :
    List Peer → Option (ℚ × ℚ × ℚ)
  | [] => some (0, 0, 0)
  | p :: rest =>
      match peerContrib peersAll m sol p, evalAux peersAll m sol rest with
      | some (w, a1, b1), some (ws, a2, b2) => some (w + ws, a1 + a2, b1 + b2)
      | _, _ => none

/-- The aggregation tail of `evaluate_solution`: demand-weighted average
delay with zero-total guard, variance-form load imbalance, normalization
with its `max_imbalance > 0` guard, and `fitness = 1 / (objective + 1e-6)`. -/
def evalFinish (alpha beta total_demand wsum load_a load_b : ℚ) : EvalResult :=
  let avg_delay := if 0 < total_demand then wsum / total_demand else 0
  let load_avg := (load_a + load_b) / 2
  let load_imbalance :=
    (1/2) * ((load_a - load_avg)^2 + (load_b - load_avg)^2)
  let normalized_delay := avg_delay / 200
  let max_imbalance := (total_demand / 2)^2
  let normalized_imbalance :=
    if 0 < max_imbalance then load_imbalance / max_imbalance else 0
  let objective := alpha * normalized_delay + beta * normalized_imbalance
  let fitness := 1 / (objective + 1/1000000)
  ⟨fitness, avg_delay, load_imbalance, load_a, load_b⟩

/-- `ImmunePlacementAlgorithm.evaluate_solution`: fitness plus auxiliary
metrics.  Division guards (`total_demand > 0`, `max_imbalance > 0`) are those
of the source. -/
def evaluate_solution (peers : List Peer) (m : RTTMatrix) (alpha beta : ℚ)
    (sol : Solution) : Option EvalResult :=
  match evalAux peers m sol peers with
  | none => none
  | some (wsum, load_a, load_b) =>
      some (evalFinish alpha beta ((peers.map Peer.demand).sum)
              wsum load_a load_b)

/-- The metrics dictionary built by
`SimulationRunner._evaluate_solution_metrics`. -/
structure MetricsResult where
  avg_delay_ms : ℚ
  load_imbalance : ℚ
  edge_a_load_kbps : ℚ
  edge_b_load_kbps : ℚ
  edge_a_utilization : ℚ
  edge_b_utilization : ℚ
  p2p_hit_rate : ℚ
  edge_a_hits : ℕ
  edge_b_hits : ℕ
  p2p_hits : ℕ
  num_super_peers : ℕ
deriving DecidableEq

/-- The runner's P2P candidate delay: raw pairwise-table lookups with the
100 ms default, with no equal-id short-circuit. -/
def d_super_metrics (m : RTTMatrix) (pid : String) (sps : List String) :
    Option ℚ :=
  listMin (sps.map (fun sp =>
    (List.lookup (pid, sp) m.peer_to_peer).getD
      ((List.lookup (sp, pid) m.peer_to_peer).getD 100)))

/-- One iteration of the runner metrics loop: weighted delay contribution,
per-edge load deltas, and (p2p, edge A, edge B) hit increments.  The edge
delay comes straight from the peer's stored latencies.  `none` models the
KeyError of `edge_hits[...]` / `edge_loads[...]` on a label outside {A, B}. -/
def metricsPeerContrib (m : RTTMatrix) (sol : Solution) (p : Peer) :
    Option (ℚ × ℚ × ℚ × ℕ × ℕ × ℕ) :=
  let e := assignedEdge sol p.id
  let d_edge := if e = "A" then p.rtt_to_edge_a else p.rtt_to_edge_b
  if e = "A" ∨ e = "B" then
    match d_super_metrics m p.id sol.super_peers with
    | some s =>
        if s + 5 < d_edge then
          some ((s + 5) * p.demand,
                (if e = "A" then p.demand else 0),
                (if e = "B" then p.demand else 0), 1, 0, 0)
        else
          some (d_edge * p.demand,
                (if e = "A" then p.demand else 0),
                (if e = "B" then p.demand else 0), 0,
                (if e = "A" then 1 else 0), (if e = "B" then 1 else 0))
    | none =>
        some (d_edge * p.demand,
              (if e = "A" then p.demand else 0),
              (if e = "B" then p.demand else 0), 0,
              (if e = "A" then 1 else 0), (if e = "B" then 1 else 0))
  else none

/-- The runner metrics loop over the peer population. -/
def metricsAux (m : RTTMatrix) (sol : Solution) :
    List Peer → Option (ℚ × ℚ × ℚ × ℕ × ℕ × ℕ)
  | [] => some (0, 0, 0, 0, 0, 0)
  | p :: rest =>
      match metricsPeerContrib m sol p, metricsAux m sol rest with
      | some (w, a1, b1, h1, x1, y1), some (ws, a2, b2, h2, x2, y2) =>
          some (w + ws, a1 + a2, b1 + b2, h1 + h2, x1 + x2, y1 + y2)
      | _, _ => none

/-- The aggregation tail of the runner's metrics routine: average delay,
variance-form imbalance, utilizations and the P2P hit rate. -/
def metricsFinish (total_demand : ℚ) (numPeers numSupers : ℕ)
    (wsum load_a load_b : ℚ) (ph ha hb : ℕ) : MetricsResult :=
  let avg_delay := if 0 < total_demand then wsum / total_demand else 0
  let load_avg := (load_a + load_b) / 2
  let load_imbalance :=
    (1/2) * ((load_a - load_avg)^2 + (load_b - load_avg)^2)
  let p2p_hit_rate :=
    if numPeers ≠ 0 then (ph : ℚ) / (numPeers : ℚ) else 0
  ⟨avg_delay, load_imbalance, load_a, load_b,
   load_a / 10000, load_b / 10000, p2p_hit_rate, ha, hb, ph, numSupers⟩

/-- `SimulationRunner._evaluate_solution_metrics` assembled from the loop
accumulators. -/
def evaluate_solution_metrics (sol : Solution) (peers : List Peer)
    (m : RTTMatrix) : Option MetricsResult :=
  match metricsAux m sol peers with
  | none => none
  | some (wsum, load_a, load_b, ph, ha, hb) =>
      some (metricsFinish ((peers.map Peer.demand).sum) peers.length
              sol.super_peers.length wsum load_a load_b ph ha hb)

/-- `SimulationRunner._round_robin_baseline`: alternate assignment A, B, A, … -/
def round_robin_baseline (peers : List Peer) : Solution :=
  { super_peers := []
    edge_assignments :=
      (peers.enum).map (fun ip =>
        (ip.2.id, if ip.1 % 2 = 0 then "A" else "B")) }

/-- `SimulationRunner._nearest_edge_baseline`: each peer bound to its closer
edge. -/
def nearest_edge_baseline (peers : List Peer) : Solution :=
  { super_peers := []
    edge_assignments :=
      peers.map (fun p =>
        (p.id, if p.rtt_to_edge_a < p.rtt_to_edge_b then "A" else "B")) }

/-! ## Concrete fixtures for counterexamples and witnesses -/

/-- Build a peer with a fixed region and no neighbors. -/
def mkPeer (i : String) (d ra rb : ℚ) : Peer := ⟨i, "r", d, ra, rb, []⟩

/-- The spec's 4-peer scenario: equal demands 100, p1/p2 closer to edge A,
p3/p4 closer to edge B. -/
def c2peers : List Peer :=
  [mkPeer "p1" 100 20 80, mkPeer "p2" 100 20 80,
   mkPeer "p3" 100 80 20, mkPeer "p4" 100 80 20]

/-- The all-on-edge-A solution of the spec scenario, zero super-peers. -/
def c2solA : Solution :=
  { super_peers := []
    edge_assignments := [("p1", "A"), ("p2", "A"), ("p3", "A"), ("p4", "A")] }

/-- An empty distance table (all lookups fall back to defaults). -/
def emptyMatrix : RTTMatrix := ⟨[], []⟩

/-- A single peer whose stored edge-A latency is 10 ms. -/
def c1peers : List Peer := [mkPeer "p" 1 10 30]

/-- A table whose (peer, edge A) entry (50 ms) overrides the stored 10 ms. -/
def c1m : RTTMatrix := ⟨[], [(("p", "A"), 50)]⟩

/-- Assign the single peer to edge A, zero super-peers. -/
def c1sol : Solution := { super_peers := [], edge_assignments := [("p", "A")] }

/-- A pairwise table holding both orderings of the pair (a, b) with two
different latencies, as the repository's synthetic generator produces. -/
def c6m : RTTMatrix := ⟨[(("a", "b"), 1), (("b", "a"), 2)], []⟩

/-! ## Small lemmas about the distance oracle -/

/-- C4 (amended): the Distance Oracle's documented behaviour.  `peerDistance`
returns 0 on equal ids, else the table entry under either ordering, else
100 ms, and is total; `edgeDistance` returns the table entry or the peer's
stored latency, and succeeds whenever the peer id belongs to the population
(for an id outside the population with no table entry it fails — see the
counterexample). -/
theorem c4_distance_oracle_defaults :
    (∀ m : RTTMatrix, ∀ i : String, get_peer_rtt m i i = 0) ∧
    (∀ m : RTTMatrix, ∀ i j : String, ∀ v : ℚ, i ≠ j →
      List.lookup (i, j) m.peer_to_peer = some v → get_peer_rtt m i j = v) ∧
    (∀ m : RTTMatrix, ∀ i j : String, ∀ v : ℚ, i ≠ j →
      List.lookup (i, j) m.peer_to_peer = none →
      List.lookup (j, i) m.peer_to_peer = some v → get_peer_rtt m i j = v) ∧
    (∀ m : RTTMatrix, ∀ i j : String, i ≠ j →
      List.lookup (i, j) m.peer_to_peer = none →
      List.lookup (j, i) m.peer_to_peer = none → get_peer_rtt m i j = 100) ∧
    (∀ m : RTTMatrix, ∀ peers : List Peer, ∀ pid e : String, ∀ v : ℚ,
      List.lookup (pid, e) m.peer_to_edge = some v →
      get_edge_rtt m peers pid e = some v) ∧
    (∀ m : RTTMatrix, ∀ peers : List Peer, ∀ pid e : String, ∀ p : Peer,
      List.lookup (pid, e) m.peer_to_edge = none →
      findPeer peers pid = some p →
      get_edge_rtt m peers pid e =
        some (if e = "A" then p.rtt_to_edge_a else p.rtt_to_edge_b)) ∧
    (∀ m : RTTMatrix, ∀ peers : List Peer, ∀ pid e : String,
      (∃ p ∈ peers, p.id = pid) → (get_edge_rtt m peers pid e).isSome) := by
  refine ⟨?_, ?_, ?_, ?_, ?_, ?_, ?_⟩
  · intro m i; simp [get_peer_rtt]
  · intro m i j v hne h; simp [get_peer_rtt, hne, h]
  · intro m i j v hne h1 h2; simp [get_peer_rtt, hne, h1, h2]
  · intro m i j hne h1 h2; simp [get_peer_rtt, hne, h1, h2]
  · intro m peers pid e v h; simp [get_edge_rtt, h]
  · intro m peers pid e p h1 h2; simp [get_edge_rtt, h1, h2]
  · intro m peers pid e ⟨p, hp, hid⟩
    unfold get_edge_rtt
    cases h : List.lookup (pid, e) m.peer_to_edge with
    | some v => simp
    | none =>
        have : (findPeer peers pid).isSome := by
          unfold findPeer
          rw [List.find?_isSome]
          exact ⟨p, hp, by simp [hid]⟩
        cases hf : findPeer peers pid with
        | none => rw [hf] at this; simp at this
        | some q => simp [hf]

/-- C4 witness: the documented defaults at concrete inputs. -/
theorem c4_distance_oracle_defaults_witness :
    get_peer_rtt c6m "a" "a" = 0 ∧
    get_peer_rtt c6m "a" "b" = 1 ∧
    get_peer_rtt emptyMatrix "a" "b" = 100 ∧
    get_edge_rtt c1m c1peers "p" "A" = some 50 ∧
    get_edge_rtt emptyMatrix c1peers "p" "B" = some 30 ∧
    (get_edge_rtt emptyMatrix c1peers "p" "A").isSome :=
  ⟨c4_distance_oracle_defaults.1 c6m "a",
   c4_distance_oracle_defaults.2.1 c6m "a" "b" 1 (by decide) rfl,
   c4_distance_oracle_defaults.2.2.2.1 emptyMatrix "a" "b" (by decide) rfl rfl,
   c4_distance_oracle_defaults.2.2.2.2.1 c1m c1peers "p" "A" 50 rfl,
   c4_distance_oracle_defaults.2.2.2.2.2.1 emptyMatrix c1peers "p" "B"
     (mkPeer "p" 1 10 30) rfl rfl,
   c4_distance_oracle_defaults.2.2.2.2.2.2 emptyMatrix c1peers "p" "A"
     ⟨mkPeer "p" 1 10 30, by simp [c1peers], rfl⟩⟩

/-- C4 counterexample: `edgeDistance` does fail on an input whose peer id is
unknown and whose table entry is absent (Python raises KeyError at
`self.peers[peer_id]`), so "never fail on any input" is false. -/
theorem c4_edge_rtt_unknown_peer_fails :
    get_edge_rtt emptyMatrix [] "ghost" "A" = none := by decide

/-- C6 (amended): the Distance Oracle is symmetric whenever at most one
ordering of the pair is present in the pairwise table, or both orderings are
present with equal values.  (With both orderings present and different values
— which the repository's synthetic generator produces — the two lookups
return the respective entries; see the counterexample.) -/
theorem c6_peer_rtt_symm (m : RTTMatrix) (i j : String)
    (h : List.lookup (i, j) m.peer_to_peer = none ∨
         List.lookup (j, i) m.peer_to_peer = none ∨
         List.lookup (i, j) m.peer_to_peer = List.lookup (j, i) m.peer_to_peer) :
    get_peer_rtt m i j = get_peer_rtt m j i := by
  by_cases hij : i = j
  · subst hij; rfl
  · have hji : j ≠ i := fun hh => hij hh.symm
    unfold get_peer_rtt
    rw [if_neg hij, if_neg hji]
    rcases h with h | h | h
    · rw [h]
      cases hj : List.lookup (j, i) m.peer_to_peer <;> simp [hj]
    · rw [h]
      cases hi : List.lookup (i, j) m.peer_to_peer <;> simp [hi]
    · rw [h]

/-- C6 witness: symmetry at a concrete table holding only one ordering. -/
theorem c6_peer_rtt_symm_witness :
    get_peer_rtt ⟨[(("a", "b"), 7)], []⟩ "b" "a" =
      get_peer_rtt ⟨[(("a", "b"), 7)], []⟩ "a" "b" :=
  c6_peer_rtt_symm ⟨[(("a", "b"), 7)], []⟩ "b" "a" (Or.inl (by decide))

/-- C6 counterexample: with both orderings present at different values (as
the synthetic generator stores them), the two lookups disagree, so the claim
"symmetric whenever either ordering is present" is false. -/
theorem c6_peer_rtt_asymm_counterexample :
    (List.lookup ("a", "b") c6m.peer_to_peer).isSome ∧
    get_peer_rtt c6m "a" "b" ≠ get_peer_rtt c6m "b" "a" := by decide

/-- C2 counterexample: on the spec's own 4-peer scenario the all-on-edge-A
solution evaluates to load imbalance 40000 (variance of loads 400 and 0
around mean 200), not the claimed 10000. -/
theorem c2_imbalance_counterexample :
    (evaluate_solution c2peers emptyMatrix (7/10) (3/10) c2solA).map
        EvalResult.load_imbalance = some 40000 ∧ (40000 : ℚ) ≠ 10000 := by
  constructor
  · simp [evaluate_solution, evalFinish, evalAux, peerContrib, assignedEdge,
      get_edge_rtt, findPeer, d_super_engine, listMin, effectiveDelay, c2peers,
      c2solA, emptyMatrix, mkPeer, List.lookup]
    norm_num
  · norm_num

/-- C2 (amended): in the 4-peer scenario, the all-on-edge-A solution yields
edge loads 400 / 0 and load imbalance 40000 by the variance formula, and the
nearest-edge baseline yields edge loads 200 / 200 and load imbalance 0. -/
theorem c2_concrete_scenario :
    (evaluate_solution c2peers emptyMatrix (7/10) (3/10) c2solA).map
        (fun r => (r.edge_a_load, r.edge_b_load, r.load_imbalance)) =
      some (400, 0, 40000) ∧
    (evaluate_solution c2peers emptyMatrix (7/10) (3/10)
        (nearest_edge_baseline c2peers)).map
        (fun r => (r.edge_a_load, r.edge_b_load, r.load_imbalance)) =
      some (200, 200, 0) := by
  constructor
  · simp [evaluate_solution, evalFinish, evalAux, peerContrib, assignedEdge,
      get_edge_rtt, findPeer, d_super_engine, listMin, effectiveDelay, c2peers,
      c2solA, emptyMatrix, mkPeer, List.lookup]
    norm_num
  · simp [evaluate_solution, evalFinish, evalAux, peerContrib, assignedEdge,
      get_edge_rtt, findPeer, d_super_engine, listMin, effectiveDelay, c2peers,
      nearest_edge_baseline, emptyMatrix, mkPeer, List.lookup]
    norm_num

/-- C1 counterexample: the runner's metrics routine is a different formula
from the engine's evaluator: on a single-peer input whose (peer, edge A)
table entry (50 ms) overrides the stored latency (10 ms), the evaluator
returns average delay 50 while the metrics routine returns 10. -/
theorem c1_metrics_differ_counterexample :
    (evaluate_solution c1peers c1m (7/10) (3/10) c1sol).map
        EvalResult.avg_delay = some 50 ∧
    (evaluate_solution_metrics c1sol c1peers c1m).map
        MetricsResult.avg_delay_ms = some 10 ∧ (50 : ℚ) ≠ 10 := by
  refine ⟨?_, ?_, by norm_num⟩
  · simp [evaluate_solution, evalFinish, evalAux, peerContrib, assignedEdge,
      get_edge_rtt, findPeer, d_super_engine, listMin, effectiveDelay, c1peers,
      c1m, c1sol, mkPeer, List.lookup]
  · simp [evaluate_solution_metrics, metricsFinish, metricsAux,
      metricsPeerContrib, assignedEdge, d_super_metrics, listMin, c1peers,
      c1m, c1sol, mkPeer, List.lookup]

/-- C10: when a solution's edge-assignment mapping has no entry for a peer,
the evaluator does not fail on that peer: the `.get(peer_id, 'A')` default
makes its edge candidate the edge-A distance and routes its demand to edge
A's load (and none to edge B's). -/
theorem c10_missing_assignment_defaults_to_A (peersAll : List Peer)
    (m : RTTMatrix) (sol : Solution) (p : Peer) (dA : ℚ)
    (hnone : List.lookup p.id sol.edge_assignments = none)
    (hA : get_edge_rtt m peersAll p.id "A" = some dA) :
    peerContrib peersAll m sol p =
      some (effectiveDelay (d_super_engine m p.id sol.super_peers) dA
              * p.demand, p.demand, 0) := by
  unfold peerContrib
  have he : assignedEdge sol p.id = "A" := by
    unfold assignedEdge; rw [hnone]; rfl
  simp [he, hA]

/-- C10 witness: a peer absent from the assignment mapping contributes its
demand to edge A using its edge-A latency. -/
theorem c10_missing_assignment_witness :
    peerContrib c1peers emptyMatrix { super_peers := [], edge_assignments := [] }
        (mkPeer "p" 1 10 30) =
      some (effectiveDelay (d_super_engine emptyMatrix "p" []) 10 * 1, 1, 0) :=
  c10_missing_assignment_defaults_to_A c1peers emptyMatrix
    { super_peers := [], edge_assignments := [] } (mkPeer "p" 1 10 30) 10
    (by decide) (by decide)

/-! ## Helper lemmas shared by the refinement and positivity proofs -/

/-- A successful association-list lookup returns a stored pair. -/
theorem lookup_mem {α β : Type} [BEq α] [LawfulBEq α] {l : List (α × β)}
    {k : α} {v : β} (h : List.lookup k l = some v) : (k, v) ∈ l := by
  induction l with
  | nil => simp [List.lookup] at h
  | cons kv rest ih =>
      rw [List.lookup] at h
      by_cases hk : k == kv.1
      · simp only [hk, cond_true] at h
        cases h
        have hkv : (k, kv.2) = kv := by rw [eq_of_beq hk]
        rw [hkv]
        exact List.mem_cons_self kv rest
      · simp only [hk, cond_false] at h
        right
        exact ih h

/-- `findPeer` succeeds for any member of the population. -/
theorem findPeer_isSome (peers : List Peer) (p : Peer) (hp : p ∈ peers) :
    (findPeer peers p.id).isSome := by
  unfold findPeer
  rw [List.find?_isSome]
  exact ⟨p, hp, by simp⟩

/-- `findPeer` returns a member of the population. -/
theorem findPeer_mem {peers : List Peer} {pid : String} {q : Peer}
    (h : findPeer peers pid = some q) : q ∈ peers :=
  List.mem_of_find?_eq_some h

/-- `get_edge_rtt` succeeds for any member of the population. -/
theorem get_edge_rtt_isSome (m : RTTMatrix) (peers : List Peer) (p : Peer)
    (e : String) (hp : p ∈ peers) : (get_edge_rtt m peers p.id e).isSome := by
  unfold get_edge_rtt
  cases h : List.lookup (p.id, e) m.peer_to_edge with
  | some v => simp
  | none =>
      have hf := findPeer_isSome peers p hp
      cases hf2 : findPeer peers p.id with
      | none => rw [hf2] at hf; simp at hf
      | some q => simp [hf2]

/-- A value produced by `listMin` over a nonnegative list is nonnegative. -/
theorem listMin_nonneg {l : List ℚ} (h : ∀ x ∈ l, 0 ≤ x) :
    ∀ y, listMin l = some y → 0 ≤ y := by
  induction l with
  | nil => intro y hy; simp [listMin] at hy
  | cons x rest ih =>
      intro y hy
      rw [listMin] at hy
      cases hr : listMin rest with
      | none =>
          rw [hr] at hy
          cases hy
          exact h x (by simp)
      | some z =>
          rw [hr] at hy
          cases hy
          have hz := ih (fun a ha => h a (by simp [ha])) z hr
          have hx := h x (by simp)
          exact le_min hx hz

/-- Unfolding of a successful `peerContrib`: the weighted effective delay and
the demand routed to the assigned edge's load. -/
theorem peerContrib_spec (peersAll : List Peer) (m : RTTMatrix)
    (sol : Solution) (p : Peer) (hp : p ∈ peersAll)
    (he : assignedEdge sol p.id = "A" ∨ assignedEdge sol p.id = "B") :
    ∃ de, get_edge_rtt m peersAll p.id (assignedEdge sol p.id) = some de ∧
      peerContrib peersAll m sol p = some
        (effectiveDelay (d_super_engine m p.id sol.super_peers) de * p.demand,
         (if assignedEdge sol p.id = "A" then p.demand else 0),
         (if assignedEdge sol p.id = "B" then p.demand else 0)) := by
  have hs := get_edge_rtt_isSome m peersAll p (assignedEdge sol p.id) hp
  cases hde : get_edge_rtt m peersAll p.id (assignedEdge sol p.id) with
  | none => rw [hde] at hs; simp at hs
  | some de =>
      refine ⟨de, rfl, ?_⟩
      unfold peerContrib
      rcases he with hA | hB
      · simp [hA, hA ▸ hde]
      · rw [hB] at hde ⊢
        simp [hde]

/-- Unfolding of a successful `metricsPeerContrib`: same load routing, and —
when there are no super-peers — the weighted delay is the stored edge
latency times the demand. -/
theorem metricsPeerContrib_spec (m : RTTMatrix) (sol : Solution) (p : Peer)
    (he : assignedEdge sol p.id = "A" ∨ assignedEdge sol p.id = "B") :
    ∃ w ph ha hb, metricsPeerContrib m sol p = some
        (w, (if assignedEdge sol p.id = "A" then p.demand else 0),
         (if assignedEdge sol p.id = "B" then p.demand else 0), ph, ha, hb) ∧
      (sol.super_peers = [] →
        w = (if assignedEdge sol p.id = "A" then p.rtt_to_edge_a
             else p.rtt_to_edge_b) * p.demand) := by
  unfold metricsPeerContrib
  rw [if_pos he]
  cases hds : d_super_metrics m p.id sol.super_peers with
  | none => exact ⟨_, 0, _, _, rfl, fun _ => rfl⟩
  | some s =>
      by_cases hlt : s + 5 <
        (if assignedEdge sol p.id = "A" then p.rtt_to_edge_a
         else p.rtt_to_edge_b)
      · refine ⟨(s + 5) * p.demand, 1, 0, 0, ?_, ?_⟩
        · dsimp only
          rw [if_pos hlt]
        · intro hsp
          rw [hsp] at hds
          simp [d_super_metrics, listMin] at hds
      · refine ⟨(if assignedEdge sol p.id = "A" then p.rtt_to_edge_a
            else p.rtt_to_edge_b) * p.demand, 0,
            (if assignedEdge sol p.id = "A" then 1 else 0),
            (if assignedEdge sol p.id = "B" then 1 else 0), ?_, fun _ => rfl⟩
        dsimp only
        rw [if_neg hlt]

/-- The engine's and the runner's accumulation loops agree on the two edge
loads, both succeed, and — with no super-peers and edge distances resolving
to the stored latencies — agree on the weighted delay sum as well. -/
theorem evalAux_metricsAux_agree (peersAll : List Peer) (m : RTTMatrix)
    (sol : Solution) :
    ∀ l : List Peer, (∀ p ∈ l, p ∈ peersAll) →
      (∀ p ∈ l, assignedEdge sol p.id = "A" ∨ assignedEdge sol p.id = "B") →
      ∃ w a b w2 ph ha hb,
        evalAux peersAll m sol l = some (w, a, b) ∧
        metricsAux m sol l = some (w2, a, b, ph, ha, hb) ∧
        (sol.super_peers = [] →
          (∀ p ∈ l, get_edge_rtt m peersAll p.id (assignedEdge sol p.id) =
            some (if assignedEdge sol p.id = "A" then p.rtt_to_edge_a
                  else p.rtt_to_edge_b)) →
          w = w2) := by
  intro l
  induction l with
  | nil =>
      intro _ _
      exact ⟨0, 0, 0, 0, 0, 0, 0, rfl, rfl, fun _ _ => rfl⟩
  | cons p rest ih =>
      intro hmem hlab
      obtain ⟨w, a, b, w2, ph, ha, hb, h1, h2, h3⟩ :=
        ih (fun q hq => hmem q (by simp [hq]))
           (fun q hq => hlab q (by simp [hq]))
      obtain ⟨de, hde, hpc⟩ :=
        peerContrib_spec peersAll m sol p (hmem p (by simp))
          (hlab p (by simp))
      obtain ⟨w', ph', ha', hb', hmc, hmc0⟩ :=
        metricsPeerContrib_spec m sol p (hlab p (by simp))
      refine ⟨effectiveDelay (d_super_engine m p.id sol.super_peers) de
          * p.demand + w,
        (if assignedEdge sol p.id = "A" then p.demand else 0) + a,
        (if assignedEdge sol p.id = "B" then p.demand else 0) + b,
        w' + w2, ph' + ph, ha' + ha, hb' + hb, ?_, ?_, ?_⟩
      · rw [evalAux, hpc, h1]
      · rw [metricsAux, hmc, h2]
      · intro hsp htab
        have hrest := h3 hsp (fun q hq => htab q (by simp [hq]))
        have hp' := htab p (by simp)
        rw [hp'] at hde
        have hdeq : de = (if assignedEdge sol p.id = "A" then p.rtt_to_edge_a
            else p.rtt_to_edge_b) := (Option.some.inj hde).symm
        have hw' := hmc0 hsp
        rw [hsp]
        have heff : effectiveDelay (d_super_engine m p.id []) de = de := by
          simp [d_super_engine, listMin, effectiveDelay]
        rw [heff, hdeq, hw', hrest]

/-- C1 (amended): for every Solution with well-formed edge labels, the
runner's metrics routine and the engine's Objective Evaluator agree on edge
A load, edge B load and load imbalance; they agree on average delay whenever
the super-peer list is empty and each peer's edge distance resolves to its
stored latency (as for the repository's round-robin and nearest-edge
baselines on its generated networks) — but the runner is a separate formula,
and on super-peer solutions or overriding distance tables the average delay
can differ (see the counterexample). -/
theorem c1_metrics_agreement (peers : List Peer) (m : RTTMatrix)
    (alpha beta : ℚ) (sol : Solution)
    (hlab : ∀ p ∈ peers,
      assignedEdge sol p.id = "A" ∨ assignedEdge sol p.id = "B") :
    ∃ r mr, evaluate_solution peers m alpha beta sol = some r ∧
      evaluate_solution_metrics sol peers m = some mr ∧
      r.edge_a_load = mr.edge_a_load_kbps ∧
      r.edge_b_load = mr.edge_b_load_kbps ∧
      r.load_imbalance = mr.load_imbalance ∧
      (sol.super_peers = [] →
        (∀ p ∈ peers, get_edge_rtt m peers p.id (assignedEdge sol p.id) =
          some (if assignedEdge sol p.id = "A" then p.rtt_to_edge_a
                else p.rtt_to_edge_b)) →
        r.avg_delay = mr.avg_delay_ms) := by
  obtain ⟨w, a, b, w2, ph, ha, hb, h1, h2, h3⟩ :=
    evalAux_metricsAux_agree peers m sol peers (fun p hp => hp) hlab
  refine ⟨evalFinish alpha beta ((peers.map Peer.demand).sum) w a b,
    metricsFinish ((peers.map Peer.demand).sum) peers.length
      sol.super_peers.length w2 a b ph ha hb, ?_, ?_, rfl, rfl, rfl, ?_⟩
  · rw [evaluate_solution, h1]
  · rw [evaluate_solution_metrics, h2]
  · intro hsp htab
    have hw := h3 hsp htab
    show (if 0 < (peers.map Peer.demand).sum
            then w / (peers.map Peer.demand).sum else 0) =
         (if 0 < (peers.map Peer.demand).sum
            then w2 / (peers.map Peer.demand).sum else 0)
    rw [hw]

/-- C1 witness: the agreement instantiated on the round-robin baseline over
the 4-peer scenario. -/
theorem c1_metrics_agreement_witness :
    ∃ r mr, evaluate_solution c2peers emptyMatrix (7/10) (3/10)
        (round_robin_baseline c2peers) = some r ∧
      evaluate_solution_metrics (round_robin_baseline c2peers) c2peers
        emptyMatrix = some mr ∧
      r.edge_a_load = mr.edge_a_load_kbps ∧
      r.edge_b_load = mr.edge_b_load_kbps ∧
      r.load_imbalance = mr.load_imbalance ∧
      ((round_robin_baseline c2peers).super_peers = [] →
        (∀ p ∈ c2peers, get_edge_rtt emptyMatrix c2peers p.id
            (assignedEdge (round_robin_baseline c2peers) p.id) =
          some (if assignedEdge (round_robin_baseline c2peers) p.id = "A"
                then p.rtt_to_edge_a else p.rtt_to_edge_b)) →
        r.avg_delay = mr.avg_delay_ms) :=
  c1_metrics_agreement c2peers emptyMatrix (7/10) (3/10)
    (round_robin_baseline c2peers)
    (by
      intro p hp
      simp only [c2peers, List.mem_cons, List.not_mem_nil, or_false] at hp
      rcases hp with h | h | h | h <;> subst h <;>
        first
          | exact Or.inl rfl
          | exact Or.inr rfl)

/-! ## Nonnegativity of the evaluator's quantities -/

/-- The pairwise Distance Oracle is nonnegative on nonnegative tables. -/
theorem get_peer_rtt_nonneg (m : RTTMatrix)
    (hp2p : ∀ kv ∈ m.peer_to_peer, 0 ≤ kv.2) (i j : String) :
    0 ≤ get_peer_rtt m i j := by
  unfold get_peer_rtt
  split
  · exact le_refl 0
  · cases h1 : List.lookup (i, j) m.peer_to_peer with
    | some v =>
        simpa using hp2p ((i, j), v) (lookup_mem h1)
    | none =>
        cases h2 : List.lookup (j, i) m.peer_to_peer with
        | some v => simpa using hp2p ((j, i), v) (lookup_mem h2)
        | none => norm_num

/-- A successful edge-distance lookup is nonnegative on nonnegative data. -/
theorem get_edge_rtt_nonneg (m : RTTMatrix) (peers : List Peer)
    (pid e : String) (v : ℚ)
    (hpe : ∀ kv ∈ m.peer_to_edge, 0 ≤ kv.2)
    (hr : ∀ p ∈ peers, 0 ≤ p.rtt_to_edge_a ∧ 0 ≤ p.rtt_to_edge_b)
    (h : get_edge_rtt m peers pid e = some v) : 0 ≤ v := by
  unfold get_edge_rtt at h
  cases h1 : List.lookup (pid, e) m.peer_to_edge with
  | some u =>
      rw [h1] at h
      have huv : u = v := Option.some.inj h
      rw [← huv]
      simpa using hpe ((pid, e), u) (lookup_mem h1)
  | none =>
      rw [h1] at h
      rw [Option.map_eq_some'] at h
      obtain ⟨q, hq, hv⟩ := h
      have hqm := hr q (findPeer_mem hq)
      rw [← hv]
      split
      · exact hqm.1
      · exact hqm.2

/-- The engine's P2P candidate is nonnegative on nonnegative tables. -/
theorem d_super_engine_nonneg (m : RTTMatrix)
    (hp2p : ∀ kv ∈ m.peer_to_peer, 0 ≤ kv.2) (pid : String)
    (sps : List String) :
    ∀ s, d_super_engine m pid sps = some s → 0 ≤ s := by
  intro s hs
  refine listMin_nonneg ?_ s hs
  intro x hx
  rw [List.mem_map] at hx
  obtain ⟨sp, _, hsp⟩ := hx
  rw [← hsp]
  exact get_peer_rtt_nonneg m hp2p pid sp

/-- The effective delay is nonnegative when both candidates are. -/
theorem effectiveDelay_nonneg (dS : Option ℚ) (dE : ℚ)
    (hS : ∀ s, dS = some s → 0 ≤ s) (hE : 0 ≤ dE) :
    0 ≤ effectiveDelay dS dE := by
  cases dS with
  | none => exact hE
  | some s =>
      have hs := hS s rfl
      exact le_min (by linarith) hE

/-- On well-formed labels and nonnegative inputs the evaluator loop succeeds
and its weighted-delay accumulator is nonnegative. -/
theorem evalAux_some_nonneg (peersAll : List Peer) (m : RTTMatrix)
    (sol : Solution)
    (hp2p : ∀ kv ∈ m.peer_to_peer, 0 ≤ kv.2)
    (hpe : ∀ kv ∈ m.peer_to_edge, 0 ≤ kv.2)
    (hr : ∀ p ∈ peersAll, 0 ≤ p.rtt_to_edge_a ∧ 0 ≤ p.rtt_to_edge_b) :
    ∀ l : List Peer, (∀ p ∈ l, p ∈ peersAll) →
      (∀ p ∈ l, 0 ≤ p.demand) →
      (∀ p ∈ l, assignedEdge sol p.id = "A" ∨ assignedEdge sol p.id = "B") →
      ∃ w a b, evalAux peersAll m sol l = some (w, a, b) ∧ 0 ≤ w := by
  intro l
  induction l with
  | nil => intro _ _ _; exact ⟨0, 0, 0, rfl, le_refl 0⟩
  | cons p rest ih =>
      intro hmem hdem hlab
      obtain ⟨w, a, b, h1, hwn⟩ :=
        ih (fun q hq => hmem q (by simp [hq]))
           (fun q hq => hdem q (by simp [hq]))
           (fun q hq => hlab q (by simp [hq]))
      obtain ⟨de, hde, hpc⟩ :=
        peerContrib_spec peersAll m sol p (hmem p (by simp))
          (hlab p (by simp))
      refine ⟨effectiveDelay (d_super_engine m p.id sol.super_peers) de
          * p.demand + w,
        (if assignedEdge sol p.id = "A" then p.demand else 0) + a,
        (if assignedEdge sol p.id = "B" then p.demand else 0) + b, ?_, ?_⟩
      · rw [evalAux, hpc, h1]
      · have hden : 0 ≤ de :=
          get_edge_rtt_nonneg m peersAll p.id (assignedEdge sol p.id) de
            hpe hr hde
        have heffn : 0 ≤ effectiveDelay
            (d_super_engine m p.id sol.super_peers) de :=
          effectiveDelay_nonneg _ _
            (d_super_engine_nonneg m hp2p p.id sol.super_peers) hden
        have := mul_nonneg heffn (hdem p (by simp))
        linarith

/-- The fitness assembled by `evalFinish` is strictly positive on
nonnegative weights and a nonnegative weighted-delay sum, and has the shape
`1 / (objective + 1e-6)` for a nonnegative objective. -/
theorem evalFinish_fitness_pos (alpha beta total w a b : ℚ)
    (ha : 0 ≤ alpha) (hb : 0 ≤ beta) (hw : 0 ≤ w) :
    0 < (evalFinish alpha beta total w a b).fitness ∧
    ∃ obj, 0 ≤ obj ∧
      (evalFinish alpha beta total w a b).fitness = 1 / (obj + 1/1000000) := by
  have havg : (0:ℚ) ≤ (if 0 < total then w / total else 0) := by
    split
    · next h => exact div_nonneg hw h.le
    · exact le_refl 0
  have himb : (0:ℚ) ≤
      (1/2) * ((a - (a+b)/2)^2 + (b - (a+b)/2)^2) := by positivity
  have hni : (0:ℚ) ≤ (if 0 < (total/2)^2 then
      ((1/2) * ((a - (a+b)/2)^2 + (b - (a+b)/2)^2)) / (total/2)^2 else 0) := by
    split
    · next h => exact div_nonneg himb h.le
    · exact le_refl 0
  have hobj : (0:ℚ) ≤ alpha * ((if 0 < total then w / total else 0) / 200) +
      beta * (if 0 < (total/2)^2 then
        ((1/2) * ((a - (a+b)/2)^2 + (b - (a+b)/2)^2)) / (total/2)^2 else 0) :=
    add_nonneg (mul_nonneg ha (div_nonneg havg (by norm_num)))
      (mul_nonneg hb hni)
  constructor
  · show (0:ℚ) < 1 / (_ + 1/1000000)
    apply div_pos one_pos
    linarith
  · exact ⟨_, hobj, rfl⟩

/-- C3: on every well-formed Solution (total edge assignments with labels in
{A, B}, super-peers drawn from the population) over nonnegative demands,
latencies and weights, `evaluate_solution` succeeds and returns a strictly
positive fitness of the shape `1 / (objective + 1e-6)` with a nonnegative
objective. -/
theorem c3_fitness_positive (peers : List Peer) (m : RTTMatrix)
    (alpha beta : ℚ) (sol : Solution)
    (halpha : 0 ≤ alpha) (hbeta : 0 ≤ beta)
    (hdemand : ∀ p ∈ peers, 0 ≤ p.demand)
    (hrtt : ∀ p ∈ peers, 0 ≤ p.rtt_to_edge_a ∧ 0 ≤ p.rtt_to_edge_b)
    (hp2p : ∀ kv ∈ m.peer_to_peer, 0 ≤ kv.2)
    (hpe : ∀ kv ∈ m.peer_to_edge, 0 ≤ kv.2)
    (htotal : ∀ p ∈ peers, (List.lookup p.id sol.edge_assignments).isSome)
    (hvals : ∀ kv ∈ sol.edge_assignments, kv.2 = "A" ∨ kv.2 = "B")
    (hsub : ∀ x ∈ sol.super_peers, ∃ p ∈ peers, p.id = x) :
    ∃ r, evaluate_solution peers m alpha beta sol = some r ∧
      0 < r.fitness ∧
      ∃ obj, 0 ≤ obj ∧ r.fitness = 1 / (obj + 1/1000000) := by
  have hlab : ∀ p ∈ peers,
      assignedEdge sol p.id = "A" ∨ assignedEdge sol p.id = "B" := by
    intro p hp
    cases hlk : List.lookup p.id sol.edge_assignments with
    | none =>
        have := htotal p hp
        rw [hlk] at this
        simp at this
    | some v =>
        have hv := hvals (p.id, v) (lookup_mem hlk)
        unfold assignedEdge
        rw [hlk]
        simpa using hv
  obtain ⟨w, a, b, hw, hwn⟩ :=
    evalAux_some_nonneg peers m sol hp2p hpe hrtt peers
      (fun p hp => hp) hdemand hlab
  obtain ⟨hpos, obj, hobj, hfit⟩ :=
    evalFinish_fitness_pos alpha beta ((peers.map Peer.demand).sum) w a b
      halpha hbeta hwn
  refine ⟨evalFinish alpha beta ((peers.map Peer.demand).sum) w a b,
    ?_, hpos, obj, hobj, hfit⟩
  rw [evaluate_solution, hw]

/-- C3 witness: positive fitness on the concrete 4-peer scenario. -/
theorem c3_fitness_positive_witness :
    ∃ r, evaluate_solution c2peers emptyMatrix (7/10) (3/10) c2solA = some r ∧
      0 < r.fitness ∧
      ∃ obj, 0 ≤ obj ∧ r.fitness = 1 / (obj + 1/1000000) :=
  c3_fitness_positive c2peers emptyMatrix (7/10) (3/10) c2solA
    (by norm_num) (by norm_num)
    (by
      intro p hp
      simp only [c2peers, List.mem_cons, List.not_mem_nil, or_false] at hp
      rcases hp with h | h | h | h <;> subst h <;> norm_num [mkPeer])
    (by
      intro p hp
      simp only [c2peers, List.mem_cons, List.not_mem_nil, or_false] at hp
      rcases hp with h | h | h | h <;> subst h <;>
        exact ⟨by norm_num [mkPeer], by norm_num [mkPeer]⟩)
    (by intro kv hkv; simp [emptyMatrix] at hkv)
    (by intro kv hkv; simp [emptyMatrix] at hkv)
    (by
      intro p hp
      simp only [c2peers, List.mem_cons, List.not_mem_nil, or_false] at hp
      rcases hp with h | h | h | h <;> subst h <;> rfl)
    (by
      intro kv hkv
      simp only [c2solA, List.mem_cons, List.not_mem_nil, or_false] at hkv
      rcases hkv with h | h | h | h <;> subst h <;> exact Or.inl rfl)
    (by intro x hx; simp [c2solA] at hx)

/-! ## The random source and the Solution Factory -/

/-- The global random source, modelled as a stream of naturals consumed at a
threaded position counter. -/
abbrev RandSrc := ℕ → ℕ

/-- `random.random()`: a rational in [0, 1] drawn from the stream. -/
def randFloat (f : RandSrc) (i : ℕ) : ℚ := ((f i % 1000000 : ℕ) : ℚ) / 1000000

/-- Select the element at a position and return the remaining list (the
elementary step of sampling without replacement). -/
def pickAux {α : Type} : List α → ℕ → Option (α × List α)
  | [], _ => none
  | x :: xs, 0 => some (x, xs)
  | x :: xs, n + 1 => (pickAux xs n).map (fun pr => (pr.1, x :: pr.2))

/-- Draw `k` distinct positions from the list, consuming the stream. -/
def sampleAux (f : RandSrc) : ℕ → List String → ℕ → Option (List String × ℕ)
  | i, _, 0 => some ([], i)
  | i, l, k + 1 =>
      match pickAux l (f i % l.length) with
      | none => none
      | some (x, rest) =>
          (sampleAux f (i + 1) rest k).map (fun pr => (x :: pr.1, pr.2))

/-- `random.sample(l, k)`: `none` models the ValueError raised when `k` is
negative or exceeds the population size. -/
def random_sample (f : RandSrc) (i : ℕ) (l : List String) (k : ℤ) :
    Option (List String × ℕ) :=
  if k < 0 ∨ (l.length : ℤ) < k then none
  else sampleAux f i l k.toNat

/-- The biased edge-assignment draw of `generate_random_solution`: the
geometrically closer edge with probability 0.7. -/
def assignEdges (f : RandSrc) : ℕ → List Peer → List (String × String) × ℕ
  | i, [] => ([], i)
  | i, p :: rest =>
      let r := randFloat f i
      let lbl :=
        if p.rtt_to_edge_a < p.rtt_to_edge_b then
          (if r < 7/10 then "A" else "B")
        else
          (if r < 7/10 then "B" else "A")
      let tail := assignEdges f (i + 1) rest
      ((p.id, lbl) :: tail.1, tail.2)

/-- Caching of `evaluate_solution`'s result on the Solution's derived
fields (the side effect of the Python evaluator). -/
def applyEval (s : Solution) (r : EvalResult) : Solution :=
  { s with fitness := r.fitness, avg_delay := r.avg_delay,
           load_imbalance := r.load_imbalance, edge_a_load := r.edge_a_load,
           edge_b_load := r.edge_b_load }

/-- `ImmunePlacementAlgorithm.generate_random_solution`: sample
`min(num_super_peers, len(peer_list))` distinct super-peers, assign each peer
its closer edge with probability 0.7, and evaluate before returning. -/
def generate_random_solution (peers : List Peer) (m : RTTMatrix)
    (num_super_peers : ℤ) (alpha beta : ℚ) (f : RandSrc) (i : ℕ) :
    Option (Solution × ℕ) :=
  let peer_list := peers.map Peer.id
  match random_sample f i peer_list
      (min num_super_peers (peer_list.length : ℤ)) with
  | none => none
  | some (sps, i1) =>
      let ea := assignEdges f i1 peers
      let sol : Solution := { super_peers := sps, edge_assignments := ea.1 }
      match evaluate_solution peers m alpha beta sol with
      | none => none
      | some r => some (applyEval sol r, ea.2)

/-- `ImmunePlacementAlgorithm.clone_solution`: a fresh Solution holding
copies of the two primary fields (derived fields reset to their defaults). -/
def clone_solution (s : Solution) : Solution :=
  { super_peers := s.super_peers, edge_assignments := s.edge_assignments }

/-- The super-peer mutation step of `mutate_solution`: with probability
`mutation_rate` (and a non-empty list), replace one random slot by a uniform
draw from the peers not currently super-peers; no-op when no candidate
remains. -/
def mutateSupers (peerIds : List String) (mutation_rate : ℚ) (f : RandSrc)
    (i : ℕ) (sps : List String) : List String × ℕ :=
  if randFloat f i < mutation_rate ∧ 0 < sps.length then
    let idx := f (i + 1) % sps.length
    let candidates := peerIds.filter (fun q => decide (q ∉ sps))
    if candidates.isEmpty then (sps, i + 2)
    else (sps.set idx (candidates.getD (f (i + 2) % candidates.length) ""),
          i + 3)
  else (sps, i + 1)

/-- The edge-assignment mutation step of `mutate_solution`: each entry flips
to the other label with probability `mutation_rate * 0.5`. -/
def flipEdges (mutation_rate : ℚ) (f : RandSrc) :
    ℕ → List (String × String) → List (String × String) × ℕ
  | i, [] => ([], i)
  | i, kv :: rest =>
      let v' := if randFloat f i < mutation_rate * (1/2) then
                  (if kv.2 = "A" then "B" else "A")
                else kv.2
      let tail := flipEdges mutation_rate f (i + 1) rest
      ((kv.1, v') :: tail.1, tail.2)

/-- `ImmunePlacementAlgorithm.mutate_solution`: clone, then mutate the
clone's super-peer list and edge assignments. -/
def mutate_solution (peers : List Peer) (mutation_rate : ℚ) (f : RandSrc)
    (i : ℕ) (sol : Solution) : Solution × ℕ :=
  let mutated := clone_solution sol
  let sp := mutateSupers (peers.map Peer.id) mutation_rate f i
              mutated.super_peers
  let ea := flipEdges mutation_rate f sp.2 mutated.edge_assignments
  ({ mutated with super_peers := sp.1, edge_assignments := ea.1 }, ea.2)

/-! ## Properties of sampling and the factory invariants -/

/-- A successful pick returns a permutation split of the list. -/
theorem pickAux_perm {α : Type} :
    ∀ (l : List α) (n : ℕ) (x : α) (rest : List α),
      pickAux l n = some (x, rest) → (x :: rest).Perm l := by
  intro l
  induction l with
  | nil => intro n x rest h; simp [pickAux] at h
  | cons a as ih =>
      intro n x rest h
      cases n with
      | zero =>
          rw [pickAux] at h
          cases h
          exact List.Perm.refl _
      | succ n =>
          rw [pickAux] at h
          rw [Option.map_eq_some'] at h
          obtain ⟨pr, hp, hpr⟩ := h
          cases hpr
          exact (List.Perm.swap a pr.1 pr.2).trans
            ((ih n pr.1 pr.2 (by rw [hp])).cons a)

/-- A pick at a position inside the list succeeds. -/
theorem pickAux_isSome {α : Type} :
    ∀ (l : List α) (n : ℕ), n < l.length → (pickAux l n).isSome := by
  intro l
  induction l with
  | nil => intro n h; simp at h
  | cons a as ih =>
      intro n h
      cases n with
      | zero => rfl
      | succ n =>
          have hn : n < as.length := by simpa using h
          have := ih n hn
          rw [pickAux]
          cases hp : pickAux as n with
          | none => rw [hp] at this; simp at this
          | some pr => simp [hp]

/-- Inversion of a successful sample: the draw has the requested length, is
drawn from the list, and is duplicate-free when the list is. -/
theorem sampleAux_inv (f : RandSrc) :
    ∀ (k i : ℕ) (l res : List String) (i' : ℕ),
      sampleAux f i l k = some (res, i') →
      res.length = k ∧ (∀ y ∈ res, y ∈ l) ∧ (l.Nodup → res.Nodup) := by
  intro k
  induction k with
  | zero =>
      intro i l res i' h
      rw [sampleAux] at h
      cases h
      exact ⟨rfl, by simp, fun _ => List.nodup_nil⟩
  | succ k ih =>
      intro i l res i' h
      rw [sampleAux] at h
      cases hp : pickAux l (f i % l.length) with
      | none => rw [hp] at h; cases h
      | some pr =>
          rw [hp] at h
          rw [Option.map_eq_some'] at h
          obtain ⟨pr2, hs, hres⟩ := h
          cases hres
          obtain ⟨hlen, hmem, hnd⟩ := ih (i + 1) pr.2 pr2.1 pr2.2 (by rw [hs])
          have hperm := pickAux_perm l (f i % l.length) pr.1 pr.2 hp
          refine ⟨by simp [hlen], ?_, ?_⟩
          · intro y hy
            rcases List.mem_cons.mp hy with hy | hy
            · exact hperm.mem_iff.mp (by simp [hy])
            · exact hperm.mem_iff.mp (by simp [hmem y hy])
          · intro hl
            have hxr : (pr.1 :: pr.2).Nodup := hperm.nodup_iff.mpr hl
            have hx : pr.1 ∉ pr.2 := (List.nodup_cons.mp hxr).1
            have hr : pr.2.Nodup := (List.nodup_cons.mp hxr).2
            rw [List.nodup_cons]
            exact ⟨fun hc => hx (hmem pr.1 hc), hnd hr⟩

/-- A sample of at most the list's length succeeds. -/
theorem sampleAux_isSome (f : RandSrc) :
    ∀ (k i : ℕ) (l : List String), k ≤ l.length →
      (sampleAux f i l k).isSome := by
  intro k
  induction k with
  | zero => intro i l h; rfl
  | succ k ih =>
      intro i l h
      have hpos : 0 < l.length := Nat.lt_of_lt_of_le (Nat.succ_pos k) h
      have hidx : f i % l.length < l.length := Nat.mod_lt _ hpos
      have hpk := pickAux_isSome l (f i % l.length) hidx
      rw [sampleAux]
      cases hp : pickAux l (f i % l.length) with
      | none => rw [hp] at hpk; simp at hpk
      | some pr =>
          have hperm := pickAux_perm l (f i % l.length) pr.1 pr.2
            (by rw [hp])
          have hlen : pr.2.length + 1 = l.length := by
            have := hperm.length_eq
            simpa using this
          have hk : k ≤ pr.2.length := by omega
          have := ih (i + 1) pr.2 hk
          cases hs : sampleAux f (i + 1) pr.2 k with
          | none => rw [hs] at this; simp at this
          | some pr2 => simp [hs]

/-- The Solution invariants of the data model: edge assignments keyed
exactly by the population's ids in order, labels in {A, B}, and a
duplicate-free super-peer list drawn from the population of size at most
`min(configuredCount, |population|)`. -/
def SolutionWF (peers : List Peer) (num_super_peers : ℤ) (sol : Solution) :
    Prop :=
  sol.edge_assignments.map Prod.fst = peers.map Peer.id ∧
  (∀ kv ∈ sol.edge_assignments, kv.2 = "A" ∨ kv.2 = "B") ∧
  sol.super_peers.Nodup ∧
  (∀ x ∈ sol.super_peers, x ∈ peers.map Peer.id) ∧
  (sol.super_peers.length : ℤ) ≤ min num_super_peers (peers.length : ℤ)

/-- The biased edge draw assigns every peer of the population, in order. -/
theorem assignEdges_keys (f : RandSrc) :
    ∀ (i : ℕ) (l : List Peer),
      ((assignEdges f i l).1).map Prod.fst = l.map Peer.id := by
  intro i l
  induction l generalizing i with
  | nil => rfl
  | cons p rest ih => simp [assignEdges, ih]

/-- The biased edge draw only produces the labels A and B. -/
theorem assignEdges_vals (f : RandSrc) :
    ∀ (i : ℕ) (l : List Peer) (kv : String × String),
      kv ∈ (assignEdges f i l).1 → kv.2 = "A" ∨ kv.2 = "B" := by
  intro i l
  induction l generalizing i with
  | nil => intro kv h; simp [assignEdges] at h
  | cons p rest ih =>
      intro kv h
      rw [assignEdges] at h
      rcases List.mem_cons.mp h with h | h
      · subst h
        dsimp only
        split
        · split
          · exact Or.inl rfl
          · exact Or.inr rfl
        · split
          · exact Or.inr rfl
          · exact Or.inl rfl
      · exact ih (i + 1) kv h

/-- Any Solution whose stored labels are all in {A, B} has a well-formed
assigned edge for every peer id (the default is A). -/
theorem assignedEdge_valid (sol : Solution)
    (hvals : ∀ kv ∈ sol.edge_assignments, kv.2 = "A" ∨ kv.2 = "B")
    (pid : String) :
    assignedEdge sol pid = "A" ∨ assignedEdge sol pid = "B" := by
  unfold assignedEdge
  cases hlk : List.lookup pid sol.edge_assignments with
  | none => exact Or.inl rfl
  | some v => simpa using hvals (pid, v) (lookup_mem hlk)

/-- The evaluator succeeds on any Solution with well-formed labels. -/
theorem evaluate_solution_isSome (peers : List Peer) (m : RTTMatrix)
    (alpha beta : ℚ) (sol : Solution)
    (hvals : ∀ kv ∈ sol.edge_assignments, kv.2 = "A" ∨ kv.2 = "B") :
    (evaluate_solution peers m alpha beta sol).isSome := by
  obtain ⟨w, a, b, w2, ph, ha, hb, h1, h2, h3⟩ :=
    evalAux_metricsAux_agree peers m sol peers (fun p hp => hp)
      (fun p _ => assignedEdge_valid sol hvals p.id)
  rw [evaluate_solution, h1]
  rfl

/-- Inversion of a successful random generation: the sampled super-peers
have length exactly `min(num_super_peers, |population|)` and the Solution
satisfies all data-model invariants. -/
theorem generate_random_solution_inv (peers : List Peer) (m : RTTMatrix)
    (num_super_peers : ℤ) (alpha beta : ℚ) (f : RandSrc) (i : ℕ)
    (sol : Solution) (i' : ℕ)
    (hids : (peers.map Peer.id).Nodup)
    (hg : generate_random_solution peers m num_super_peers alpha beta f i =
      some (sol, i')) :
    SolutionWF peers num_super_peers sol ∧
    (sol.super_peers.length : ℤ) =
      min num_super_peers (peers.length : ℤ) := by
  simp only [generate_random_solution, random_sample] at hg
  set k := min num_super_peers ((peers.map Peer.id).length : ℤ) with hk
  by_cases hneg : k < 0 ∨ ((peers.map Peer.id).length : ℤ) < k
  · rw [if_pos hneg] at hg
    cases hg
  · rw [if_neg hneg] at hg
    push_neg at hneg
    cases hs : sampleAux f i (peers.map Peer.id) k.toNat with
    | none => rw [hs] at hg; cases hg
    | some pr =>
        obtain ⟨sps, i1⟩ := pr
        rw [hs] at hg
        dsimp only at hg
        obtain ⟨hlen, hmem, hnd⟩ :=
          sampleAux_inv f k.toNat i (peers.map Peer.id) sps i1 (by rw [hs])
        cases he : evaluate_solution peers m alpha beta
            { super_peers := sps,
              edge_assignments := (assignEdges f i1 peers).1 } with
        | none => rw [he] at hg; cases hg
        | some r =>
            rw [he] at hg
            cases hg
            have hklen : (sps.length : ℤ) = k := by
              rw [hlen]
              exact Int.toNat_of_nonneg hneg.1
            have hkmin : k = min num_super_peers ((peers.length : ℤ)) := by
              rw [hk]; simp
            refine ⟨⟨?_, ?_, ?_, ?_, ?_⟩, by
              show (sps.length : ℤ) = _
              rw [hklen, hkmin]⟩
            · exact assignEdges_keys f i1 peers
            · exact fun kv hkv => assignEdges_vals f i1 peers kv hkv
            · exact hnd hids
            · exact hmem
            · show (sps.length : ℤ) ≤ _
              rw [hklen, hkmin]

/-- With a nonnegative requested super-peer count, random generation always
succeeds (the request is capped by the population size). -/
theorem generate_random_solution_isSome (peers : List Peer) (m : RTTMatrix)
    (num_super_peers : ℤ) (alpha beta : ℚ) (f : RandSrc) (i : ℕ)
    (hnsp : 0 ≤ num_super_peers) :
    ∃ sol i', generate_random_solution peers m num_super_peers alpha beta f i
      = some (sol, i') := by
  simp only [generate_random_solution, random_sample]
  set k := min num_super_peers ((peers.map Peer.id).length : ℤ) with hk
  have h0 : 0 ≤ k := le_min hnsp (Int.natCast_nonneg _)
  have h1 : k ≤ ((peers.map Peer.id).length : ℤ) := min_le_right _ _
  rw [if_neg (by push_neg; exact ⟨not_lt.mp (by omega), by omega⟩)]
  have hk2 : k.toNat ≤ (peers.map Peer.id).length := by omega
  have hss := sampleAux_isSome f k.toNat i (peers.map Peer.id) hk2
  cases hs : sampleAux f i (peers.map Peer.id) k.toNat with
  | none => rw [hs] at hss; simp at hss
  | some pr =>
      obtain ⟨sps, i1⟩ := pr
      dsimp only
      have hev := evaluate_solution_isSome peers m alpha beta
        { super_peers := sps, edge_assignments := (assignEdges f i1 peers).1 }
        (fun kv hkv => assignEdges_vals f i1 peers kv hkv)
      cases he : evaluate_solution peers m alpha beta
          { super_peers := sps,
            edge_assignments := (assignEdges f i1 peers).1 } with
      | none => rw [he] at hev; simp at hev
      | some r => exact ⟨_, _, rfl⟩

/-- Membership after a positional overwrite: the element is the written
value or was already present. -/
theorem mem_set_imp {α : Type} :
    ∀ (l : List α) (n : ℕ) (y a : α), a ∈ l.set n y → a = y ∨ a ∈ l := by
  intro l
  induction l with
  | nil => intro n y a h; simp at h
  | cons x xs ih =>
      intro n y a h
      cases n with
      | zero =>
          rcases List.mem_cons.mp h with h | h
          · exact Or.inl h
          · exact Or.inr (List.mem_cons_of_mem x h)
      | succ n =>
          rcases List.mem_cons.mp h with h | h
          · exact Or.inr (h ▸ List.mem_cons_self x xs)
          · rcases ih n y a h with h | h
            · exact Or.inl h
            · exact Or.inr (List.mem_cons_of_mem x h)

/-- Overwriting one slot with a fresh value keeps the list duplicate-free. -/
theorem nodup_set {α : Type} :
    ∀ (l : List α) (n : ℕ) (y : α), l.Nodup → y ∉ l → (l.set n y).Nodup := by
  intro l
  induction l with
  | nil => intro n y _ _; simp
  | cons x xs ih =>
      intro n y hnd hy
      cases n with
      | zero =>
          rw [List.set]
          rw [List.nodup_cons] at hnd ⊢
          exact ⟨fun hc => hy (List.mem_cons_of_mem x hc), hnd.2⟩
      | succ n =>
          rw [List.set]
          rw [List.nodup_cons] at hnd ⊢
          refine ⟨?_, ih n y hnd.2 (fun hc => hy (List.mem_cons_of_mem x hc))⟩
          intro hc
          rcases mem_set_imp xs n y x hc with h | h
          · exact hy (h ▸ List.mem_cons_self x xs)
          · exact hnd.1 h

/-- An in-range default read returns a member of the list. -/
theorem getD_mem {α : Type} :
    ∀ (l : List α) (n : ℕ) (d : α), n < l.length → l.getD n d ∈ l := by
  intro l
  induction l with
  | nil => intro n d h; simp at h
  | cons x xs ih =>
      intro n d h
      cases n with
      | zero => exact List.mem_cons_self x xs
      | succ n =>
          have hn : n < xs.length := by simpa using h
          exact List.mem_cons_of_mem x (ih n d hn)

/-- The super-peer mutation step preserves being a duplicate-free selection
from the peer ids of unchanged length. -/
theorem mutateSupers_inv (peerIds : List String) (mutation_rate : ℚ)
    (f : RandSrc) (i : ℕ) (sps : List String)
    (hnd : sps.Nodup) (hsub : ∀ x ∈ sps, x ∈ peerIds) :
    (mutateSupers peerIds mutation_rate f i sps).1.Nodup ∧
    (∀ x ∈ (mutateSupers peerIds mutation_rate f i sps).1, x ∈ peerIds) ∧
    (mutateSupers peerIds mutation_rate f i sps).1.length = sps.length := by
  unfold mutateSupers
  split
  · next hcond =>
      set candidates := peerIds.filter (fun q => decide (q ∉ sps)) with hc
      by_cases hemp : candidates.isEmpty
      · rw [if_pos hemp]
        exact ⟨hnd, hsub, rfl⟩
      · rw [if_neg hemp]
        have hclen : 0 < candidates.length := by
          refine List.length_pos.mpr ?_
          intro hc0
          rw [hc0] at hemp
          simp at hemp
        have hy : candidates.getD (f (i + 2) % candidates.length) "" ∈
            candidates :=
          getD_mem candidates _ "" (Nat.mod_lt _ hclen)
        have hyp : candidates.getD (f (i + 2) % candidates.length) "" ∈
            peerIds := List.mem_of_mem_filter (hc ▸ hy)
        have hys : candidates.getD (f (i + 2) % candidates.length) "" ∉
            sps := by
          have := List.of_mem_filter (hc ▸ hy)
          exact of_decide_eq_true this
        refine ⟨nodup_set sps _ _ hnd hys, ?_, by simp⟩
        intro x hx
        rcases mem_set_imp sps _ _ x hx with h | h
        · exact h ▸ hyp
        · exact hsub x h
  · exact ⟨hnd, hsub, rfl⟩

/-- The edge-flip step keeps the key sequence and the label set. -/
theorem flipEdges_inv (mutation_rate : ℚ) (f : RandSrc) :
    ∀ (i : ℕ) (ea : List (String × String)),
      ((flipEdges mutation_rate f i ea).1.map Prod.fst = ea.map Prod.fst) ∧
      ((∀ kv ∈ ea, kv.2 = "A" ∨ kv.2 = "B") →
        ∀ kv ∈ (flipEdges mutation_rate f i ea).1,
          kv.2 = "A" ∨ kv.2 = "B") := by
  intro i ea
  induction ea generalizing i with
  | nil => exact ⟨rfl, fun _ kv h => by simp [flipEdges] at h⟩
  | cons kv0 rest ih =>
      constructor
      · rw [flipEdges]
        simp only [List.map_cons]
        rw [(ih (i + 1)).1]
      · intro hvals kv hkv
        rw [flipEdges] at hkv
        rcases List.mem_cons.mp hkv with h | h
        · subst h
          dsimp only
          split
          · split
            · exact Or.inr rfl
            · exact Or.inl rfl
          · exact hvals kv0 (List.mem_cons_self kv0 rest)
        · exact (ih (i + 1)).2
            (fun kv2 hkv2 => hvals kv2 (List.mem_cons_of_mem kv0 hkv2)) kv h

/-- Mutation preserves all Solution invariants. -/
theorem mutate_solution_WF (peers : List Peer) (mutation_rate : ℚ)
    (f : RandSrc) (i : ℕ) (sol : Solution) (num_super_peers : ℤ)
    (hwf : SolutionWF peers num_super_peers sol) :
    SolutionWF peers num_super_peers
      (mutate_solution peers mutation_rate f i sol).1 := by
  obtain ⟨hkeys, hvals, hnd, hsub, hlen⟩ := hwf
  obtain ⟨hnd', hsub', hlen'⟩ :=
    mutateSupers_inv (peers.map Peer.id) mutation_rate f i sol.super_peers
      hnd hsub
  refine ⟨?_, ?_, hnd', hsub', ?_⟩
  · rw [show (mutate_solution peers mutation_rate f i sol).1.edge_assignments
        = (flipEdges mutation_rate f
            (mutateSupers (peers.map Peer.id) mutation_rate f i
              sol.super_peers).2 sol.edge_assignments).1 from rfl]
    rw [(flipEdges_inv mutation_rate f _ sol.edge_assignments).1]
    exact hkeys
  · intro kv hkv
    exact (flipEdges_inv mutation_rate f _ sol.edge_assignments).2 hvals kv hkv
  · show ((mutateSupers (peers.map Peer.id) mutation_rate f i
        sol.super_peers).1.length : ℤ) ≤ _
    rw [hlen']
    exact hlen

/-- Cloning preserves all Solution invariants. -/
theorem clone_solution_WF (peers : List Peer) (num_super_peers : ℤ)
    (sol : Solution) (hwf : SolutionWF peers num_super_peers sol) :
    SolutionWF peers num_super_peers (clone_solution sol) := hwf

/-- Caching evaluation results preserves all Solution invariants. -/
theorem applyEval_WF (peers : List Peer) (num_super_peers : ℤ)
    (sol : Solution) (r : EvalResult)
    (hwf : SolutionWF peers num_super_peers sol) :
    SolutionWF peers num_super_peers (applyEval sol r) := hwf

/-! ## The Optimization Loop (clonal selection engine) -/

/-- One per-generation history snapshot (`history_entry` in `optimize`). -/
structure GenerationRecord where
  generation : ℕ
  best_fitness : ℚ
  avg_fitness : ℚ
  best_avg_delay : ℚ
  best_load_imbalance : ℚ
  best_edge_a_load : ℚ
  best_edge_b_load : ℚ
deriving DecidableEq

/-- Python's `int()` truncation toward zero on a rational. -/
def pyInt (q : ℚ) : ℤ := q.num / (q.den : ℤ)

/-- `population.sort(key=lambda s: s.fitness, reverse=True)`: stable
descending sort by fitness. -/
def sortDesc (l : List Solution) : List Solution :=
  List.insertionSort (fun a b => b.fitness < a.fitness) l

/-- The re-evaluation sweep over the population (step 2a of the loop);
failure of any evaluation aborts, as the Python exception would. -/
def evalPop (peers : List Peer) (m : RTTMatrix) (alpha beta : ℚ) :
    List Solution → Option (List Solution)
  | [] => some []
  | s :: rest =>
      match evaluate_solution peers m alpha beta s with
      | none => none
      | some r =>
          match evalPop peers m alpha beta rest with
          | none => none
          | some t => some (applyEval s r :: t)

/-- Best-ever tracking (step 2b): strictly greater fitness replaces the
best, deep-cloning the Solution; ties keep the first-seen. -/
def trackBest : (ℚ × Option Solution) → List Solution → ℚ × Option Solution
  | acc, [] => acc
  | acc, s :: rest =>
      trackBest
        (if acc.1 < s.fitness then (s.fitness, some (clone_solution s))
         else acc) rest

/-- `sum(s.fitness for s in population)`. -/
def sumFitness (l : List Solution) : ℚ :=
  l.foldl (fun acc s => acc + s.fitness) 0

/-- `num_clones` mutated copies of one elite Solution. -/
def mutateN (peers : List Peer) (mutation_rate : ℚ) (f : RandSrc)
    (s : Solution) : ℕ → ℕ → List Solution × ℕ
  | i, 0 => ([], i)
  | i, n + 1 =>
      let c := mutate_solution peers mutation_rate f i s
      let rest := mutateN peers mutation_rate f s c.2 n
      (c.1 :: rest.1, rest.2)

/-- The clonal-selection sweep (step 2f): each elite produces
`max(1, int(clone_factor * fitness / best_fitness))` mutated clones. -/
def cloneElites (peers : List Peer) (mutation_rate : ℚ) (clone_factor : ℤ)
    (f : RandSrc) (top : Solution) :
    ℕ → List Solution → List Solution × ℕ
  | i, [] => ([], i)
  | i, s :: rest =>
      let fitFrac := if 0 < top.fitness then s.fitness / top.fitness else 1
      let n := (max 1 (pyInt ((clone_factor : ℚ) * fitFrac))).toNat
      let cs := mutateN peers mutation_rate f s i n
      let more := cloneElites peers mutation_rate clone_factor f top cs.2 rest
      (cs.1 ++ more.1, more.2)

/-- `n` fresh random Solutions in sequence (population initialization and
the diversity fill of step 2g). -/
def fillRandom (peers : List Peer) (m : RTTMatrix) (num_super_peers : ℤ)
    (alpha beta : ℚ) (f : RandSrc) : ℕ → ℕ → Option (List Solution × ℕ)
  | i, 0 => some ([], i)
  | i, n + 1 =>
      match generate_random_solution peers m num_super_peers alpha beta f i
      with
      | none => none
      | some si =>
          match fillRandom peers m num_super_peers alpha beta f si.2 n with
          | none => none
          | some rest => some (si.1 :: rest.1, rest.2)

/-- One generation of `optimize`: evaluate, track the best, sort, record the
history entry, select the elite `M = max(1, pop_size // 3)`, clone-and-
mutate, and fill with fresh random Solutions.  `none` models the
ZeroDivisionError on an empty population, the AttributeError on a `None`
best Solution, and the IndexError of `population[idx]`. -/
def genStep (peers : List Peer) (m : RTTMatrix) (num_super_peers : ℤ)
    (alpha beta mutation_rate : ℚ) (clone_factor pop_size : ℤ) (f : RandSrc)
    (gen : ℕ) (pop : List Solution) (bf : ℚ) (bs : Option Solution) (i : ℕ) :
    Option (List Solution × ℚ × Option Solution × GenerationRecord × ℕ) :=
  match evalPop peers m alpha beta pop with
  | none => none
  | some evald =>
      let tb := trackBest (bf, bs) evald
      let sorted := sortDesc evald
      if sorted.isEmpty then none
      else
        match tb.2 with
        | none => none
        | some best =>
            let avg := sumFitness sorted / (sorted.length : ℚ)
            let entry : GenerationRecord :=
              ⟨gen, tb.1, avg, best.avg_delay, best.load_imbalance,
               best.edge_a_load, best.edge_b_load⟩
            let M := (max 1 (Int.fdiv pop_size 3)).toNat
            if sorted.length < M then none
            else
              let top := sorted.headD { super_peers := [], edge_assignments := [] }
              let cl := cloneElites peers mutation_rate clone_factor f top i
                          (sorted.take M)
              match fillRandom peers m num_super_peers alpha beta f cl.2
                  ((pop_size - (cl.1.length : ℤ)).toNat) with
              | none => none
              | some fl => some (cl.1 ++ fl.1, tb.1, tb.2, entry, fl.2)

/-- The generation recursion of `optimize`.  At exhaustion the best-ever
Solution is returned; a still-`None` best makes the final field accesses
fail. -/
def optimizeLoop (peers : List Peer) (m : RTTMatrix) (num_super_peers : ℤ)
    (alpha beta mutation_rate : ℚ) (clone_factor pop_size : ℤ)
    (f : RandSrc) :
    ℕ → ℕ → List Solution → ℚ → Option Solution → ℕ →
    Option (Solution × List GenerationRecord)
  | 0, _, _, _, bs, _ => bs.map (fun b => (b, []))
  | n + 1, gen, pop, bf, bs, i =>
      match genStep peers m num_super_peers alpha beta mutation_rate
          clone_factor pop_size f gen pop bf bs i with
      | none => none
      | some st =>
          match optimizeLoop peers m num_super_peers alpha beta mutation_rate
              clone_factor pop_size f n (gen + 1) st.1 st.2.1 st.2.2.1
              st.2.2.2.2 with
          | none => none
          | some br => some (br.1, st.2.2.2.1 :: br.2)

/-- `ImmunePlacementAlgorithm.optimize`: initialize `pop_size` random
Solutions (none for a non-positive size), then run the configured number of
generations starting from `best_fitness = -1.0` and no best Solution. -/
def optimize (peers : List Peer) (m : RTTMatrix) (num_super_peers : ℤ)
    (alpha beta mutation_rate : ℚ) (clone_factor pop_size : ℤ)
    (max_generations : ℕ) (f : RandSrc) (i : ℕ) :
    Option (Solution × List GenerationRecord) :=
  match fillRandom peers m num_super_peers alpha beta f i pop_size.toNat with
  | none => none
  | some pr =>
      optimizeLoop peers m num_super_peers alpha beta mutation_rate
        clone_factor pop_size f max_generations 0 pr.1 (-1) none pr.2

/-! ## Monotonicity of the recorded best fitness -/

/-- The tracked best fitness never decreases along the sweep. -/
theorem trackBest_fst_le :
    ∀ (l : List Solution) (acc : ℚ × Option Solution),
      acc.1 ≤ (trackBest acc l).1 := by
  intro l
  induction l with
  | nil => intro acc; exact le_refl _
  | cons s rest ih =>
      intro acc
      rw [trackBest]
      refine le_trans ?_ (ih _)
      split
      · next h => exact le_of_lt h
      · exact le_refl _

/-- Without a strictly greater fitness in the sweep, the tracked pair is
unchanged — on ties the first-seen Solution wins. -/
theorem trackBest_no_improve :
    ∀ (l : List Solution) (bf : ℚ) (bs : Option Solution),
      (∀ s ∈ l, s.fitness ≤ bf) → trackBest (bf, bs) l = (bf, bs) := by
  intro l
  induction l with
  | nil => intro bf bs _; rfl
  | cons s rest ih =>
      intro bf bs h
      rw [trackBest]
      rw [if_neg (not_lt.mpr (h s (List.mem_cons_self s rest)))]
      exact ih bf bs (fun t ht => h t (List.mem_cons_of_mem s ht))

/-- A successful generation step advances the best fitness monotonically and
records exactly the updated value. -/
theorem genStep_inv (peers : List Peer) (m : RTTMatrix)
    (num_super_peers : ℤ) (alpha beta mutation_rate : ℚ)
    (clone_factor pop_size : ℤ) (f : RandSrc) (gen : ℕ)
    (pop : List Solution) (bf : ℚ) (bs : Option Solution) (i : ℕ)
    (pop' : List Solution) (bf' : ℚ) (bs' : Option Solution)
    (entry : GenerationRecord) (i' : ℕ)
    (h : genStep peers m num_super_peers alpha beta mutation_rate
        clone_factor pop_size f gen pop bf bs i =
      some (pop', bf', bs', entry, i')) :
    bf ≤ bf' ∧ entry.best_fitness = bf' := by
  simp only [genStep] at h
  cases hev : evalPop peers m alpha beta pop with
  | none => rw [hev] at h; cases h
  | some evald =>
      rw [hev] at h
      dsimp only at h
      by_cases hemp : (sortDesc evald).isEmpty
      · rw [if_pos hemp] at h; cases h
      · rw [if_neg hemp] at h
        cases htb : (trackBest (bf, bs) evald).2 with
        | none => rw [htb] at h; cases h
        | some best =>
            rw [htb] at h
            dsimp only at h
            by_cases hM : (sortDesc evald).length <
                (max 1 (Int.fdiv pop_size 3)).toNat
            · rw [if_pos hM] at h; cases h
            · rw [if_neg hM] at h
              set cl := cloneElites peers mutation_rate clone_factor f
                  ((sortDesc evald).headD
                    { super_peers := [], edge_assignments := [] }) i
                  ((sortDesc evald).take
                    ((max 1 (Int.fdiv pop_size 3)).toNat)) with hcl
              cases hfl : fillRandom peers m num_super_peers alpha beta f
                  cl.2 ((pop_size - (cl.1.length : ℤ)).toNat) with
              | none => rw [hfl] at h; cases h
              | some fl =>
                  rw [hfl] at h
                  cases h
                  exact ⟨trackBest_fst_le evald (bf, bs), rfl⟩

/-- Along the generation recursion, the recorded best-fitness sequence is a
non-decreasing chain bounded below by the incoming best fitness. -/
theorem optimizeLoop_chain (peers : List Peer) (m : RTTMatrix)
    (num_super_peers : ℤ) (alpha beta mutation_rate : ℚ)
    (clone_factor pop_size : ℤ) (f : RandSrc) :
    ∀ (n gen : ℕ) (pop : List Solution) (bf : ℚ) (bs : Option Solution)
      (i : ℕ) (b : Solution) (recs : List GenerationRecord),
      optimizeLoop peers m num_super_peers alpha beta mutation_rate
        clone_factor pop_size f n gen pop bf bs i = some (b, recs) →
      List.Chain' (fun x y => x ≤ y)
        (recs.map GenerationRecord.best_fitness) ∧
      (∀ r0, (recs.map GenerationRecord.best_fitness).head? = some r0 →
        bf ≤ r0) := by
  intro n
  induction n with
  | zero =>
      intro gen pop bf bs i b recs h
      rw [optimizeLoop] at h
      rw [Option.map_eq_some'] at h
      obtain ⟨b0, hb0, hpr⟩ := h
      cases hpr
      exact ⟨List.chain'_nil, by intro r0 hr0; simp at hr0⟩
  | succ n ih =>
      intro gen pop bf bs i b recs h
      rw [optimizeLoop] at h
      cases hgs : genStep peers m num_super_peers alpha beta mutation_rate
          clone_factor pop_size f gen pop bf bs i with
      | none => rw [hgs] at h; cases h
      | some st =>
          rw [hgs] at h
          dsimp only at h
          cases hlo : optimizeLoop peers m num_super_peers alpha beta
              mutation_rate clone_factor pop_size f n (gen + 1) st.1 st.2.1
              st.2.2.1 st.2.2.2.2 with
          | none => rw [hlo] at h; cases h
          | some br =>
              rw [hlo] at h
              cases h
              obtain ⟨hchain, hhead⟩ := ih (gen + 1) st.1 st.2.1 st.2.2.1
                st.2.2.2.2 br.1 br.2 hlo
              obtain ⟨hle, hbf⟩ := genStep_inv peers m num_super_peers alpha
                beta mutation_rate clone_factor pop_size f gen pop bf bs i
                st.1 st.2.1 st.2.2.1 st.2.2.2.1 st.2.2.2.2
                (by rw [hgs])
              constructor
              · rw [List.map_cons]
                rw [List.chain'_cons']
                refine ⟨?_, hchain⟩
                intro y hy
                have := hhead y hy
                rw [hbf]
                exact this
              · intro r0 hr0
                rw [List.map_cons] at hr0
                rw [List.head?_cons] at hr0
                cases hr0
                rw [hbf]
                exact hle

/-- C8: across one optimization run's GenerationRecord sequence, the
recorded `best_fitness` never decreases, and the best-ever Solution is
replaced only on strictly greater fitness, so on ties the first-seen
Solution wins (a sweep with no strictly greater fitness leaves the tracked
pair unchanged). -/
theorem c8_monotone_best_fitness (peers : List Peer) (m : RTTMatrix)
    (num_super_peers : ℤ) (alpha beta mutation_rate : ℚ)
    (clone_factor pop_size : ℤ) (max_generations : ℕ) (f : RandSrc) (i : ℕ)
    (b : Solution) (recs : List GenerationRecord)
    (h : optimize peers m num_super_peers alpha beta mutation_rate
        clone_factor pop_size max_generations f i = some (b, recs)) :
    List.Chain' (fun x y => x ≤ y)
      (recs.map GenerationRecord.best_fitness) ∧
    (∀ (bf : ℚ) (bs : Option Solution) (l : List Solution),
      (∀ s ∈ l, s.fitness ≤ bf) → trackBest (bf, bs) l = (bf, bs)) := by
  constructor
  · rw [optimize] at h
    cases hfl : fillRandom peers m num_super_peers alpha beta f i
        pop_size.toNat with
    | none => rw [hfl] at h; cases h
    | some pr =>
        rw [hfl] at h
        dsimp only at h
        exact (optimizeLoop_chain peers m num_super_peers alpha beta
          mutation_rate clone_factor pop_size f max_generations 0 pr.1 (-1)
          none pr.2 b recs h).1
  · intro bf bs l hl
    exact trackBest_no_improve l bf bs hl

/-- C8 witness: a concrete one-generation run on an empty population of
peers, with its monotone record chain. -/
theorem c8_monotone_best_fitness_witness :
    ∃ (b : Solution) (recs : List GenerationRecord),
      optimize [] emptyMatrix 0 (7/10) (3/10) 0 3 1 1 (fun _ => 0) 0 =
        some (b, recs) ∧
      List.Chain' (fun x y => x ≤ y)
        (recs.map GenerationRecord.best_fitness) := by
  have h : optimize [] emptyMatrix 0 (7/10) (3/10) 0 3 1 1 (fun _ => 0) 0 =
      some ({ super_peers := [], edge_assignments := [] },
            [⟨0, 1000000, 1000000, 0, 0, 0, 0⟩]) := by
    norm_num [optimize, fillRandom, generate_random_solution, random_sample,
      sampleAux, assignEdges, evaluate_solution, evalAux, evalFinish,
      applyEval, optimizeLoop, genStep, evalPop, trackBest, sortDesc,
      List.insertionSort, List.orderedInsert, sumFitness, cloneElites,
      mutateN, mutate_solution, mutateSupers, flipEdges, clone_solution,
      pyInt, randFloat, emptyMatrix, (by decide : Int.fdiv 1 3 = 0)]
  exact ⟨_, _, h,
    (c8_monotone_best_fitness [] emptyMatrix 0 (7/10) (3/10) 0 3 1 1
      (fun _ => 0) 0 _ _ h).1⟩

/-- With an empty population and no best Solution, every loop length fails
(ZeroDivisionError on the mean, or AttributeError on the final accesses). -/
theorem optimizeLoop_empty_none (peers : List Peer) (m : RTTMatrix)
    (num_super_peers : ℤ) (alpha beta mutation_rate : ℚ)
    (clone_factor pop_size : ℤ) (f : RandSrc) :
    ∀ (n gen : ℕ) (bf : ℚ) (i : ℕ),
      optimizeLoop peers m num_super_peers alpha beta mutation_rate
        clone_factor pop_size f n gen [] bf none i = none := by
  intro n gen bf i
  cases n with
  | zero => rfl
  | succ n => rfl

/-- C5 (amended): a requested super-peer count is capped only from above —
for any nonnegative request, random generation succeeds with exactly
`min(request, |population|)` super-peers (an over-large request or an empty
population degrades to a capped or empty list); but a negative request makes
random generation fail (ValueError in `random.sample`), and a non-positive
solution-population size makes the optimization loop fail, rather than
producing degenerate output. -/
theorem c5_capping_and_failures :
    (∀ (peers : List Peer) (m : RTTMatrix) (num_super_peers : ℤ)
       (alpha beta : ℚ) (f : RandSrc) (i : ℕ),
      0 ≤ num_super_peers → (peers.map Peer.id).Nodup →
      ∃ sol i', generate_random_solution peers m num_super_peers alpha beta
          f i = some (sol, i') ∧
        (sol.super_peers.length : ℤ) =
          min num_super_peers (peers.length : ℤ)) ∧
    (∀ (peers : List Peer) (m : RTTMatrix) (num_super_peers : ℤ)
       (alpha beta mutation_rate : ℚ) (clone_factor pop_size : ℤ)
       (max_generations : ℕ) (f : RandSrc) (i : ℕ),
      pop_size ≤ 0 →
      optimize peers m num_super_peers alpha beta mutation_rate clone_factor
        pop_size max_generations f i = none) := by
  constructor
  · intro peers m num_super_peers alpha beta f i hnsp hids
    obtain ⟨sol, i', hg⟩ :=
      generate_random_solution_isSome peers m num_super_peers alpha beta f i
        hnsp
    obtain ⟨_, hlen⟩ :=
      generate_random_solution_inv peers m num_super_peers alpha beta f i
        sol i' hids hg
    exact ⟨sol, i', hg, hlen⟩
  · intro peers m num_super_peers alpha beta mutation_rate clone_factor
      pop_size max_generations f i hps
    rw [optimize]
    have h0 : pop_size.toNat = 0 := Int.toNat_of_nonpos hps
    rw [h0]
    rw [show fillRandom peers m num_super_peers alpha beta f i 0 =
      some ([], i) from rfl]
    exact optimizeLoop_empty_none peers m num_super_peers alpha beta
      mutation_rate clone_factor pop_size f max_generations 0 (-1) i

/-- C5 witness: capping at a concrete over-large request, and the loop
failure at population size 0. -/
theorem c5_capping_and_failures_witness :
    (∃ sol i', generate_random_solution [mkPeer "p" 1 10 30] emptyMatrix 5
        (7/10) (3/10) (fun _ => 0) 0 = some (sol, i') ∧
      (sol.super_peers.length : ℤ) = min 5 (([mkPeer "p" 1 10 30] :
        List Peer).length : ℤ)) ∧
    optimize [] emptyMatrix 0 (7/10) (3/10) 0 3 0 1 (fun _ => 0) 0 = none :=
  ⟨c5_capping_and_failures.1 [mkPeer "p" 1 10 30] emptyMatrix 5 (7/10)
      (3/10) (fun _ => 0) 0 (by decide) (by decide),
   c5_capping_and_failures.2 [] emptyMatrix 0 (7/10) (3/10) 0 3 0 1
      (fun _ => 0) 0 (by decide)⟩

/-- C5 counterexample: a negative requested super-peer count makes random
generation fail — `random.sample` raises ValueError on `min(-1, 1) = -1` —
so "the core raises no error for any such configuration" is false. -/
theorem c5_negative_super_peers_crash :
    generate_random_solution [mkPeer "p" 1 10 30] emptyMatrix (-1) (7/10)
      (3/10) (fun _ => 0) 0 = none := rfl

/-! ## Well-formedness through the Optimization Loop -/

/-- Solution well-formedness depends only on the two primary fields. -/
theorem SolutionWF_congr (peers : List Peer) (num_super_peers : ℤ)
    (s t : Solution) (h1 : t.super_peers = s.super_peers)
    (h2 : t.edge_assignments = s.edge_assignments)
    (h : SolutionWF peers num_super_peers s) :
    SolutionWF peers num_super_peers t := by
  unfold SolutionWF at h ⊢
  rw [h1, h2]
  exact h

/-- The re-evaluation sweep only rewrites derived fields: each output
Solution shares its primary fields with an input Solution. -/
theorem evalPop_primary (peers : List Peer) (m : RTTMatrix)
    (alpha beta : ℚ) :
    ∀ (pop evald : List Solution),
      evalPop peers m alpha beta pop = some evald →
      ∀ t ∈ evald, ∃ s ∈ pop, t.super_peers = s.super_peers ∧
        t.edge_assignments = s.edge_assignments := by
  intro pop
  induction pop with
  | nil =>
      intro evald h t ht
      rw [evalPop] at h
      cases h
      simp at ht
  | cons s rest ih =>
      intro evald h t ht
      rw [evalPop] at h
      cases he : evaluate_solution peers m alpha beta s with
      | none => rw [he] at h; cases h
      | some r =>
          rw [he] at h
          cases hrest : evalPop peers m alpha beta rest with
          | none => rw [hrest] at h; cases h
          | some trest =>
              rw [hrest] at h
              cases h
              rcases List.mem_cons.mp ht with ht | ht
              · exact ⟨s, List.mem_cons_self s rest, by rw [ht]; exact ⟨rfl, rfl⟩⟩
              · obtain ⟨s2, hs2, hf⟩ := ih trest hrest t ht
                exact ⟨s2, List.mem_cons_of_mem s hs2, hf⟩

/-- The best-tracking sweep either keeps the incoming best Solution or
installs a clone of a swept Solution. -/
theorem trackBest_cases :
    ∀ (l : List Solution) (acc : ℚ × Option Solution),
      (trackBest acc l).2 = acc.2 ∨
      ∃ s ∈ l, (trackBest acc l).2 = some (clone_solution s) := by
  intro l
  induction l with
  | nil => intro acc; exact Or.inl rfl
  | cons s rest ih =>
      intro acc
      rw [trackBest]
      rcases ih (if acc.1 < s.fitness then
          (s.fitness, some (clone_solution s)) else acc) with h | h
      · rw [h]
        split
        · exact Or.inr ⟨s, List.mem_cons_self s rest, rfl⟩
        · exact Or.inl rfl
      · obtain ⟨s2, hs2, hf⟩ := h
        exact Or.inr ⟨s2, List.mem_cons_of_mem s hs2, hf⟩

/-- Every mutated clone of a well-formed Solution is well-formed. -/
theorem mutateN_WF (peers : List Peer) (mutation_rate : ℚ) (f : RandSrc)
    (s : Solution) (num_super_peers : ℤ)
    (hwf : SolutionWF peers num_super_peers s) :
    ∀ (n i : ℕ) (c : Solution),
      c ∈ (mutateN peers mutation_rate f s i n).1 →
      SolutionWF peers num_super_peers c := by
  intro n
  induction n with
  | zero => intro i c hc; simp [mutateN] at hc
  | succ n ih =>
      intro i c hc
      rw [mutateN] at hc
      rcases List.mem_cons.mp hc with hc | hc
      · rw [hc]
        exact mutate_solution_WF peers mutation_rate f i s num_super_peers
          hwf
      · exact ih _ c hc

/-- Clonal selection produces only well-formed Solutions from well-formed
elites. -/
theorem cloneElites_WF (peers : List Peer) (mutation_rate : ℚ)
    (clone_factor : ℤ) (f : RandSrc) (top : Solution)
    (num_super_peers : ℤ) :
    ∀ (elites : List Solution) (i : ℕ),
      (∀ s ∈ elites, SolutionWF peers num_super_peers s) →
      ∀ c ∈ (cloneElites peers mutation_rate clone_factor f top i elites).1,
        SolutionWF peers num_super_peers c := by
  intro elites
  induction elites with
  | nil => intro i _ c hc; simp [cloneElites] at hc
  | cons s rest ih =>
      intro i helite c hc
      rw [cloneElites] at hc
      rcases List.mem_append.mp hc with hc | hc
      · exact mutateN_WF peers mutation_rate f s num_super_peers
          (helite s (List.mem_cons_self s rest)) _ _ c hc
      · exact ih _ (fun t ht => helite t (List.mem_cons_of_mem s ht)) c hc

/-- Random refills are well-formed when the population ids are unique. -/
theorem fillRandom_WF (peers : List Peer) (m : RTTMatrix)
    (num_super_peers : ℤ) (alpha beta : ℚ) (f : RandSrc)
    (hids : (peers.map Peer.id).Nodup) :
    ∀ (n i : ℕ) (pr : List Solution × ℕ),
      fillRandom peers m num_super_peers alpha beta f i n = some pr →
      ∀ s ∈ pr.1, SolutionWF peers num_super_peers s := by
  intro n
  induction n with
  | zero =>
      intro i pr h s hs
      rw [fillRandom] at h
      cases h
      simp at hs
  | succ n ih =>
      intro i pr h s hs
      rw [fillRandom] at h
      cases hg : generate_random_solution peers m num_super_peers alpha beta
          f i with
      | none => rw [hg] at h; cases h
      | some si =>
          rw [hg] at h
          dsimp only at h
          cases hr : fillRandom peers m num_super_peers alpha beta f si.2 n
          with
          | none => rw [hr] at h; cases h
          | some rest =>
              rw [hr] at h
              cases h
              rcases List.mem_cons.mp hs with hs | hs
              · rw [hs]
                exact (generate_random_solution_inv peers m num_super_peers
                  alpha beta f i si.1 si.2 hids (by rw [hg])).1
              · exact ih si.2 rest hr s hs

/-- A successful generation step keeps every population member and the
tracked best Solution well-formed. -/
theorem genStep_WF (peers : List Peer) (m : RTTMatrix)
    (num_super_peers : ℤ) (alpha beta mutation_rate : ℚ)
    (clone_factor pop_size : ℤ) (f : RandSrc) (gen : ℕ)
    (pop : List Solution) (bf : ℚ) (bs : Option Solution) (i : ℕ)
    (pop' : List Solution) (bf' : ℚ) (bs' : Option Solution)
    (entry : GenerationRecord) (i' : ℕ)
    (hids : (peers.map Peer.id).Nodup)
    (hpop : ∀ s ∈ pop, SolutionWF peers num_super_peers s)
    (hbs : ∀ x, bs = some x → SolutionWF peers num_super_peers x)
    (h : genStep peers m num_super_peers alpha beta mutation_rate
        clone_factor pop_size f gen pop bf bs i =
      some (pop', bf', bs', entry, i')) :
    (∀ s ∈ pop', SolutionWF peers num_super_peers s) ∧
    (∀ x, bs' = some x → SolutionWF peers num_super_peers x) := by
  simp only [genStep] at h
  cases hev : evalPop peers m alpha beta pop with
  | none => rw [hev] at h; cases h
  | some evald =>
      rw [hev] at h
      dsimp only at h
      have hevald : ∀ t ∈ evald, SolutionWF peers num_super_peers t := by
        intro t ht
        obtain ⟨s, hs, h1, h2⟩ :=
          evalPop_primary peers m alpha beta pop evald hev t ht
        exact SolutionWF_congr peers num_super_peers s t h1 h2 (hpop s hs)
      have hsorted : ∀ t ∈ sortDesc evald,
          SolutionWF peers num_super_peers t := by
        intro t ht
        exact hevald t ((List.perm_insertionSort _ evald).mem_iff.mp ht)
      have htb2 : ∀ x, (trackBest (bf, bs) evald).2 = some x →
          SolutionWF peers num_super_peers x := by
        intro x hx
        rcases trackBest_cases evald (bf, bs) with hc | hc
        · rw [hx] at hc
          exact hbs x hc.symm
        · obtain ⟨s, hs, hf⟩ := hc
          rw [hx] at hf
          have : x = clone_solution s := Option.some.inj hf
          rw [this]
          exact clone_solution_WF peers num_super_peers s (hevald s hs)
      by_cases hemp : (sortDesc evald).isEmpty
      · rw [if_pos hemp] at h; cases h
      · rw [if_neg hemp] at h
        cases htb : (trackBest (bf, bs) evald).2 with
        | none => rw [htb] at h; cases h
        | some best =>
            rw [htb] at h
            dsimp only at h
            by_cases hM : (sortDesc evald).length <
                (max 1 (Int.fdiv pop_size 3)).toNat
            · rw [if_pos hM] at h; cases h
            · rw [if_neg hM] at h
              set cl := cloneElites peers mutation_rate clone_factor f
                  ((sortDesc evald).headD
                    { super_peers := [], edge_assignments := [] }) i
                  ((sortDesc evald).take
                    ((max 1 (Int.fdiv pop_size 3)).toNat)) with hcl
              cases hfl : fillRandom peers m num_super_peers alpha beta f
                  cl.2 ((pop_size - (cl.1.length : ℤ)).toNat) with
              | none => rw [hfl] at h; cases h
              | some fl =>
                  rw [hfl] at h
                  cases h
                  constructor
                  · intro s hs
                    rcases List.mem_append.mp hs with hs | hs
                    · refine cloneElites_WF peers mutation_rate clone_factor
                        f _ num_super_peers _ _ ?_ s (hcl ▸ hs)
                      intro t ht
                      exact hsorted t (List.take_subset _ _ ht)
                    · exact fillRandom_WF peers m num_super_peers alpha beta
                        f hids _ _ _ hfl s hs
                  · intro x hx
                    exact htb2 x (htb.trans hx)

/-- The generation recursion preserves well-formedness into the returned
best-ever Solution. -/
theorem optimizeLoop_WF (peers : List Peer) (m : RTTMatrix)
    (num_super_peers : ℤ) (alpha beta mutation_rate : ℚ)
    (clone_factor pop_size : ℤ) (f : RandSrc)
    (hids : (peers.map Peer.id).Nodup) :
    ∀ (n gen : ℕ) (pop : List Solution) (bf : ℚ) (bs : Option Solution)
      (i : ℕ) (b : Solution) (recs : List GenerationRecord),
      (∀ s ∈ pop, SolutionWF peers num_super_peers s) →
      (∀ x, bs = some x → SolutionWF peers num_super_peers x) →
      optimizeLoop peers m num_super_peers alpha beta mutation_rate
        clone_factor pop_size f n gen pop bf bs i = some (b, recs) →
      SolutionWF peers num_super_peers b := by
  intro n
  induction n with
  | zero =>
      intro gen pop bf bs i b recs hpop hbs h
      rw [optimizeLoop] at h
      rw [Option.map_eq_some'] at h
      obtain ⟨b0, hb0, hpr⟩ := h
      cases hpr
      exact hbs b hb0
  | succ n ih =>
      intro gen pop bf bs i b recs hpop hbs h
      rw [optimizeLoop] at h
      cases hgs : genStep peers m num_super_peers alpha beta mutation_rate
          clone_factor pop_size f gen pop bf bs i with
      | none => rw [hgs] at h; cases h
      | some st =>
          rw [hgs] at h
          dsimp only at h
          obtain ⟨hpop', hbs'⟩ := genStep_WF peers m num_super_peers alpha
            beta mutation_rate clone_factor pop_size f gen pop bf bs i
            st.1 st.2.1 st.2.2.1 st.2.2.2.1 st.2.2.2.2 hids hpop hbs
            (by rw [hgs])
          cases hlo : optimizeLoop peers m num_super_peers alpha beta
              mutation_rate clone_factor pop_size f n (gen + 1) st.1 st.2.1
              st.2.2.1 st.2.2.2.2 with
          | none => rw [hlo] at h; cases h
          | some br =>
              rw [hlo] at h
              cases h
              exact ih (gen + 1) st.1 st.2.1 st.2.2.1 st.2.2.2.2 br.1 br.2
                hpop' hbs' hlo

/-- C7: every Solution produced by the Solution Factory (random generation,
cloning, mutation) or returned as the Optimization Loop's best-ever
Solution satisfies the data-model invariants: edge-assignment keys exactly
the population ids, labels in {A, B}, and a duplicate-free super-peer list
drawn from the population ids of length at most
`min(configuredCount, |population|)`. -/
theorem c7_solution_invariants (peers : List Peer) (m : RTTMatrix)
    (num_super_peers : ℤ) (alpha beta mutation_rate : ℚ)
    (clone_factor pop_size : ℤ) (max_generations : ℕ)
    (hids : (peers.map Peer.id).Nodup) :
    (∀ (f : RandSrc) (i : ℕ) (sol : Solution) (i' : ℕ),
      generate_random_solution peers m num_super_peers alpha beta f i =
        some (sol, i') → SolutionWF peers num_super_peers sol) ∧
    (∀ sol : Solution, SolutionWF peers num_super_peers sol →
      SolutionWF peers num_super_peers (clone_solution sol)) ∧
    (∀ (f : RandSrc) (i : ℕ) (sol : Solution),
      SolutionWF peers num_super_peers sol →
      SolutionWF peers num_super_peers
        (mutate_solution peers mutation_rate f i sol).1) ∧
    (∀ (f : RandSrc) (i : ℕ) (b : Solution)
       (recs : List GenerationRecord),
      optimize peers m num_super_peers alpha beta mutation_rate clone_factor
        pop_size max_generations f i = some (b, recs) →
      SolutionWF peers num_super_peers b) := by
  refine ⟨?_, ?_, ?_, ?_⟩
  · intro f i sol i' hg
    exact (generate_random_solution_inv peers m num_super_peers alpha beta
      f i sol i' hids hg).1
  · intro sol hwf
    exact clone_solution_WF peers num_super_peers sol hwf
  · intro f i sol hwf
    exact mutate_solution_WF peers mutation_rate f i sol num_super_peers hwf
  · intro f i b recs h
    rw [optimize] at h
    cases hfl : fillRandom peers m num_super_peers alpha beta f i
        pop_size.toNat with
    | none => rw [hfl] at h; cases h
    | some pr =>
        rw [hfl] at h
        dsimp only at h
        exact optimizeLoop_WF peers m num_super_peers alpha beta
          mutation_rate clone_factor pop_size f hids max_generations 0 pr.1
          (-1) none pr.2 b recs
          (fun s hs => fillRandom_WF peers m num_super_peers alpha beta f
            hids _ _ _ hfl s hs)
          (fun x hx => by cases hx) h

/-- C7 witness: the invariants of a concretely generated Solution. -/
theorem c7_solution_invariants_witness :
    ∃ sol i', generate_random_solution [mkPeer "p" 1 10 30] emptyMatrix 1
        (7/10) (3/10) (fun _ => 0) 0 = some (sol, i') ∧
      SolutionWF [mkPeer "p" 1 10 30] 1 sol := by
  obtain ⟨sol, i', hg⟩ :=
    generate_random_solution_isSome [mkPeer "p" 1 10 30] emptyMatrix 1
      (7/10) (3/10) (fun _ => 0) 0 (by decide)
  exact ⟨sol, i', hg,
    (c7_solution_invariants [mkPeer "p" 1 10 30] emptyMatrix 1 (7/10)
      (3/10) 0 3 1 1 (by decide)).1 (fun _ => 0) 0 sol i' hg⟩

/-! ## Reference semantics of cloning and mutation

Python Solutions hold mutable list/dict objects.  To state clone
independence, the two container fields are modelled through an explicit
store of allocated cells addressed by indices; `clone_solution`'s
`.copy()` calls allocate fresh cells. -/

/-- The store of allocated super-peer lists and edge-assignment dicts. -/
structure PyHeap where
  lists : List (List String)
  maps : List (List (String × String))
deriving DecidableEq

/-- A Solution's two container fields as references into the store. -/
structure SolutionRef where
  sp_ref : ℕ
  ea_ref : ℕ
deriving DecidableEq

/-- Read a super-peer list cell. -/
def readList (h : PyHeap) (r : ℕ) : List String := h.lists.getD r []

/-- Read an edge-assignment cell. -/
def readMap (h : PyHeap) (r : ℕ) : List (String × String) := h.maps.getD r []

/-- Overwrite a super-peer list cell. -/
def writeList (h : PyHeap) (r : ℕ) (v : List String) : PyHeap :=
  { h with lists := h.lists.set r v }

/-- Overwrite an edge-assignment cell. -/
def writeMap (h : PyHeap) (r : ℕ) (v : List (String × String)) : PyHeap :=
  { h with maps := h.maps.set r v }

/-- Allocate a fresh super-peer list cell. -/
def allocList (h : PyHeap) (v : List String) : PyHeap × ℕ :=
  ({ h with lists := h.lists ++ [v] }, h.lists.length)

/-- Allocate a fresh edge-assignment cell. -/
def allocMap (h : PyHeap) (v : List (String × String)) : PyHeap × ℕ :=
  ({ h with maps := h.maps ++ [v] }, h.maps.length)

/-- `clone_solution` on the store: read both containers of the source and
allocate fresh copies (`list.copy()` / `dict.copy()`). -/
def clone_solutionH (h : PyHeap) (s : SolutionRef) : PyHeap × SolutionRef :=
  let a1 := allocList h (readList h s.sp_ref)
  let a2 := allocMap a1.1 (readMap a1.1 s.ea_ref)
  (a2.1, ⟨a1.2, a2.2⟩)

/-- `mutate_solution` on the store: clone, then write the mutated
super-peer list and edge assignments into the clone's cells only. -/
def mutate_solutionH (peers : List Peer) (mutation_rate : ℚ) (f : RandSrc)
    (i : ℕ) (h : PyHeap) (s : SolutionRef) : PyHeap × SolutionRef × ℕ :=
  let c := clone_solutionH h s
  let sp := mutateSupers (peers.map Peer.id) mutation_rate f i
              (readList c.1 c.2.sp_ref)
  let h2 := writeList c.1 c.2.sp_ref sp.1
  let ea := flipEdges mutation_rate f sp.2 (readMap h2 c.2.ea_ref)
  let h3 := writeMap h2 c.2.ea_ref ea.1
  (h3, c.2, ea.2)

/-- `getD` after overwriting a different slot is unchanged. -/
theorem getD_set_ne {α : Type} :
    ∀ (l : List α) (n m : ℕ) (v d : α), n ≠ m →
      (l.set n v).getD m d = l.getD m d := by
  intro l
  induction l with
  | nil => intro n m v d _; rfl
  | cons x xs ih =>
      intro n m v d hnm
      cases n with
      | zero =>
          cases m with
          | zero => exact absurd rfl hnm
          | succ m => rfl
      | succ n =>
          cases m with
          | zero => rfl
          | succ m => exact ih n m v d (fun hc => hnm (by rw [hc]))

/-- `getD` inside the original segment of an append is unchanged. -/
theorem getD_append_left {α : Type} :
    ∀ (l l2 : List α) (n : ℕ) (d : α), n < l.length →
      (l ++ l2).getD n d = l.getD n d := by
  intro l
  induction l with
  | nil => intro l2 n d h; simp at h
  | cons x xs ih =>
      intro l2 n d h
      cases n with
      | zero => rfl
      | succ n => exact ih l2 n d (by simpa using h)

/-- C9: mutation never touches its input Solution: after
`mutate_solutionH`, the original's super-peer list and edge-assignment
cells are unchanged, the returned clone addresses different cells, and
subsequently overwriting the clone's cells still leaves the original's
fields unchanged. -/
theorem c9_clone_independence (peers : List Peer) (mutation_rate : ℚ)
    (f : RandSrc) (i : ℕ) (h : PyHeap) (s : SolutionRef)
    (hs1 : s.sp_ref < h.lists.length) (hs2 : s.ea_ref < h.maps.length) :
    (readList (mutate_solutionH peers mutation_rate f i h s).1 s.sp_ref =
        readList h s.sp_ref ∧
     readMap (mutate_solutionH peers mutation_rate f i h s).1 s.ea_ref =
        readMap h s.ea_ref) ∧
    ((mutate_solutionH peers mutation_rate f i h s).2.1.sp_ref ≠ s.sp_ref ∧
     (mutate_solutionH peers mutation_rate f i h s).2.1.ea_ref ≠ s.ea_ref) ∧
    (∀ v, readList (writeList (mutate_solutionH peers mutation_rate f i h
        s).1 ((mutate_solutionH peers mutation_rate f i h s).2.1.sp_ref) v)
        s.sp_ref = readList h s.sp_ref) ∧
    (∀ v, readMap (writeMap (mutate_solutionH peers mutation_rate f i h
        s).1 ((mutate_solutionH peers mutation_rate f i h s).2.1.ea_ref) v)
        s.ea_ref = readMap h s.ea_ref) := by
  have hne1 : h.lists.length ≠ s.sp_ref :=
    fun hc => absurd (hc ▸ hs1) (lt_irrefl _)
  have hne2 : h.maps.length ≠ s.ea_ref :=
    fun hc => absurd (hc ▸ hs2) (lt_irrefl _)
  simp only [mutate_solutionH, clone_solutionH, allocList, allocMap,
    writeList, writeMap, readList, readMap]
  refine ⟨⟨?_, ?_⟩, ⟨hne1, hne2⟩, ?_, ?_⟩
  · rw [getD_set_ne _ _ _ _ _ hne1, getD_append_left _ _ _ _ hs1]
  · rw [getD_set_ne _ _ _ _ _ hne2, getD_append_left _ _ _ _ hs2]
  · intro v
    rw [getD_set_ne _ _ _ _ _ hne1, getD_set_ne _ _ _ _ _ hne1,
      getD_append_left _ _ _ _ hs1]
  · intro v
    rw [getD_set_ne _ _ _ _ _ hne2, getD_set_ne _ _ _ _ _ hne2,
      getD_append_left _ _ _ _ hs2]

/-- C9 witness: clone independence on a concrete one-cell store. -/
theorem c9_clone_independence_witness :
    (readList (mutate_solutionH [] 0 (fun _ => 0) 0
        ⟨[["a"]], [[("a", "A")]]⟩ ⟨0, 0⟩).1 0 =
      readList ⟨[["a"]], [[("a", "A")]]⟩ 0 ∧
     readMap (mutate_solutionH [] 0 (fun _ => 0) 0
        ⟨[["a"]], [[("a", "A")]]⟩ ⟨0, 0⟩).1 0 =
      readMap ⟨[["a"]], [[("a", "A")]]⟩ 0) ∧
    ((mutate_solutionH [] 0 (fun _ => 0) 0 ⟨[["a"]], [[("a", "A")]]⟩
        ⟨0, 0⟩).2.1.sp_ref ≠ 0 ∧
     (mutate_solutionH [] 0 (fun _ => 0) 0 ⟨[["a"]], [[("a", "A")]]⟩
        ⟨0, 0⟩).2.1.ea_ref ≠ 0) ∧
    (∀ v, readList (writeList (mutate_solutionH [] 0 (fun _ => 0) 0
        ⟨[["a"]], [[("a", "A")]]⟩ ⟨0, 0⟩).1 ((mutate_solutionH [] 0
        (fun _ => 0) 0 ⟨[["a"]], [[("a", "A")]]⟩ ⟨0, 0⟩).2.1.sp_ref) v) 0 =
      readList ⟨[["a"]], [[("a", "A")]]⟩ 0) ∧
    (∀ v, readMap (writeMap (mutate_solutionH [] 0 (fun _ => 0) 0
        ⟨[["a"]], [[("a", "A")]]⟩ ⟨0, 0⟩).1 ((mutate_solutionH [] 0
        (fun _ => 0) 0 ⟨[["a"]], [[("a", "A")]]⟩ ⟨0, 0⟩).2.1.ea_ref) v) 0 =
      readMap ⟨[["a"]], [[("a", "A")]]⟩ 0) :=
  c9_clone_independence [] 0 (fun _ => 0) 0 ⟨[["a"]], [[("a", "A")]]⟩
    ⟨0, 0⟩ (by decide) (by decide)
